import Mathlib

/-
Verification development for the RP-growth recurring-pattern miner
(`rp_growth.py`, `tree.py`).

All definitions are shallow embeddings of the Python source:
  * timestamps, `per`, `min_ps`, `min_rec` are natural numbers
    (the Python code uses ints; `math.floor(float(ps)/min_ps)` equals
    natural division `ps / min_ps` for positive `min_ps`);
  * Python dicts are insertion-ordered association lists;
  * the mutable node graph of `tree.py` is an arena of nodes addressed
    by position, with routes stored as insertion-ordered id lists
    (a route's head-to-tail neighbor chain enumerates exactly that list);
  * fallible operations (`KeyError` on a missing route, recursion fuel)
    return `Except String`.
-/

namespace RPGrowth

/-! ### Algorithm 5: `PatternFinder._get_recurrence` (rp_growth.py 114-144)

The Python loop carries `last_occurence`, `start_ts`, `current_ps` and a
list `sub_db` of closed qualifying intervals `(start_ts, last_occurence)`.
For a nonempty input the first iteration sets `current_ps = 1`,
`start_ts = t`, `last_occurence = t`; `getRecurrenceLoop` is the loop from
the second element on.  For the empty input the trailing
`if current_ps >= min_ps` test fires with `current_ps = 1` and appends the
interval `(None, None)`; we represent that sentinel interval as `(0, 0)`
(only the length of `sub_db` is ever observed). -/

def getRecurrenceLoop (per min_ps : Nat) (lastOcc startTs currentPs : Nat)
    (subDb : List (Nat × Nat)) : List Nat → List (Nat × Nat)
  | [] => if min_ps ≤ currentPs then subDb ++ [(startTs, lastOcc)] else subDb
  | t :: ts =>
    if t - lastOcc ≤ per then
      getRecurrenceLoop per min_ps t startTs (currentPs + 1) subDb ts
    else
      getRecurrenceLoop per min_ps t t 1
        (if min_ps ≤ currentPs then subDb ++ [(startTs, lastOcc)] else subDb) ts

def getRecurrenceSubDb (per min_ps : Nat) : List Nat → List (Nat × Nat)
  | [] => if min_ps ≤ 1 then [(0, 0)] else []
  | t :: ts => getRecurrenceLoop per min_ps t t 1 [] ts

/-- `_get_recurrence`: `len(sub_db) >= self.min_rec`. -/
def getRecurrence (per min_ps min_rec : Nat) (timestamps : List Nat) : Bool :=
  min_rec ≤ (getRecurrenceSubDb per min_ps timestamps).length

/-! ### Spec-side run decomposition (claim C2's wording)

Modelled from the spec: the maximal runs of a timestamp sequence, where a
run extends while the gap between consecutive timestamps is at most
`per`; a qualifying run has length at least `min_ps`. -/

def specRuns (per : Nat) : List Nat → List (List Nat)
  | [] => []
  | [t] => [[t]]
  | t :: u :: ts =>
    match specRuns per (u :: ts) with
    | [] => [[t]]
    | r :: rs => if u - t ≤ per then (t :: r) :: rs else [t] :: r :: rs

/-- Modelled from the spec: the number of maximal runs of length at least
`min_ps`. -/
def specQualRunCount (per min_ps : Nat) (l : List Nat) : Nat :=
  (specRuns per l).countP (fun r => decide (min_ps ≤ r.length))

/-- Lengths of the runs of `ts`, given that the currently open run has
length `currentPs` and ends at `lastOcc`; the final (still open) run is
included.  Shared bridge between `_get_recurrence` and the RP-list scan. -/
def runLengths (per : Nat) (lastOcc currentPs : Nat) : List Nat → List Nat
  | [] => [currentPs]
  | t :: ts =>
    if t - lastOcc ≤ per then runLengths per t (currentPs + 1) ts
    else currentPs :: runLengths per t 1 ts

theorem runLengths_ne_nil (per lastOcc currentPs : Nat) (ts : List Nat) :
    runLengths per lastOcc currentPs ts ≠ [] := by
  induction ts generalizing lastOcc currentPs with
  | nil => simp [runLengths]
  | cons t ts ih =>
    simp only [runLengths]
    split
    · exact ih t (currentPs + 1)
    · simp

theorem getRecurrenceLoop_length (per min_ps : Nat) (ts : List Nat) :
    ∀ lastOcc startTs currentPs subDb,
      (getRecurrenceLoop per min_ps lastOcc startTs currentPs subDb ts).length =
        subDb.length +
          (runLengths per lastOcc currentPs ts).countP
            (fun L => decide (min_ps ≤ L)) := by
  induction ts with
  | nil =>
    intro lastOcc startTs currentPs subDb
    simp only [getRecurrenceLoop, runLengths, List.countP_cons, List.countP_nil]
    split
    · simp_all
    · simp_all
  | cons t ts ih =>
    intro lastOcc startTs currentPs subDb
    simp only [getRecurrenceLoop, runLengths]
    split
    · exact ih t startTs (currentPs + 1) subDb
    · rw [ih t t 1]
      rw [List.countP_cons]
      split <;> simp_all <;> omega

theorem specRuns_cons_ne_nil (per t : Nat) (ts : List Nat) :
    specRuns per (t :: ts) ≠ [] := by
  cases ts with
  | nil => simp [specRuns]
  | cons u ts =>
    simp only [specRuns]
    rcases specRuns per (u :: ts) with _ | ⟨r, rs⟩
    · simp
    · by_cases h : u - t ≤ per
      · simp [h]
      · simp [h]

theorem runLengths_eq_specRuns (per : Nat) (ts : List Nat) :
    ∀ u k r rs, specRuns per (u :: ts) = r :: rs →
      runLengths per u (k + 1) ts = (k + r.length) :: rs.map List.length := by
  induction ts with
  | nil =>
    intro u k r rs h
    simp only [specRuns] at h
    cases h
    simp [runLengths]
  | cons v ts ih =>
    intro u k r rs h
    rcases h2 : specRuns per (v :: ts) with _ | ⟨r2, rs2⟩
    · exact absurd h2 (specRuns_cons_ne_nil per v ts)
    · simp only [specRuns, h2] at h
      by_cases hgap : v - u ≤ per
      · simp only [if_pos hgap] at h
        injection h with hr hrs
        subst hr
        subst hrs
        simp only [runLengths, if_pos hgap]
        have := ih v (k + 1) r2 rs2 h2
        rw [this]
        simp only [List.length_cons]
        congr 1
        omega
      · simp only [if_neg hgap] at h
        injection h with hr hrs
        subst hr
        subst hrs
        simp only [runLengths, if_neg hgap]
        have := ih v 0 r2 rs2 h2
        simpa using this

/-- For a nonempty timestamp list, the length of `sub_db` computed by
`_get_recurrence` equals the number of maximal runs of length at least
`min_ps`. -/
theorem getRecurrenceSubDb_length_eq (per min_ps t : Nat) (ts : List Nat) :
    (getRecurrenceSubDb per min_ps (t :: ts)).length =
      specQualRunCount per min_ps (t :: ts) := by
  rcases h : specRuns per (t :: ts) with _ | ⟨r, rs⟩
  · exact absurd h (specRuns_cons_ne_nil per t ts)
  · have hrl := runLengths_eq_specRuns per ts t 0 r rs h
    simp only [getRecurrenceSubDb, specQualRunCount, h]
    rw [getRecurrenceLoop_length]
    simp only [List.length_nil, Nat.zero_add, hrl, Nat.zero_add]
    rw [List.countP_cons, List.countP_map, List.countP_cons]
    simp only [Function.comp_def]

/-! ### Algorithm 1 seen by one item
(`PatternFinder.find_recurring_patterns`, rp_growth.py 17-48)

The RP-list scan touches the entry of an item exactly at that item's own
occurrences, in ascending timestamp order; the per-item evolution of the
entry is the fold below over the item's occurrence timestamps. -/

structure RPItemEntry where
  support : Nat
  max_recurrence : Nat
  periodic_support : Nat
  last_timestamp : Nat
deriving Repr, DecidableEq

/-- One later occurrence of an already-seen item (rp_growth.py 23-36). -/
def rpListUpdate (per min_ps : Nat) (e : RPItemEntry) (timestamp : Nat) :
    RPItemEntry :=
  if timestamp - e.last_timestamp ≤ per then
    { e with support := e.support + 1,
             periodic_support := e.periodic_support + 1,
             last_timestamp := timestamp }
  else
    { e with max_recurrence := e.max_recurrence + e.periodic_support / min_ps,
             support := e.support + 1,
             periodic_support := 1,
             last_timestamp := timestamp }

/-- First occurrence: `Item(item, 1, 0, 1)` and `last_timestamp = timestamp`
(rp_growth.py 21, 36). -/
def rpInitEntry (timestamp : Nat) : RPItemEntry :=
  { support := 1, max_recurrence := 0, periodic_support := 1,
    last_timestamp := timestamp }

/-- End-of-scan flush (rp_growth.py 43-48): only fires when
`periodic_support > 1`. -/
def rpFlushEntry (min_ps : Nat) (e : RPItemEntry) : RPItemEntry :=
  if 1 < e.periodic_support then
    { e with max_recurrence := e.max_recurrence + e.periodic_support / min_ps,
             periodic_support := 1 }
  else e

/-- The flushed `max_recurrence` estimate accumulated for an item whose
ascending occurrence timestamps are the given list. -/
def rpItemMaxRec (per min_ps : Nat) : List Nat → Nat
  | [] => 0
  | t :: ts =>
    (rpFlushEntry min_ps ((ts.foldl (rpListUpdate per min_ps)
      (rpInitEntry t)))).max_recurrence

/-- Total `max_recurrence` contribution of a run-length decomposition:
every interior run contributes `L / min_ps`; the final run contributes
only when its length exceeds 1 (the flush guard). -/
def mrOfRuns (min_ps : Nat) : List Nat → Nat
  | [] => 0
  | [L] => if 1 < L then L / min_ps else 0
  | L :: L2 :: Ls => L / min_ps + mrOfRuns min_ps (L2 :: Ls)

theorem rpScan_maxRec_eq_mrOfRuns (per min_ps : Nat) (ts : List Nat) :
    ∀ e : RPItemEntry,
      (rpFlushEntry min_ps (ts.foldl (rpListUpdate per min_ps) e)).max_recurrence
        = e.max_recurrence +
            mrOfRuns min_ps (runLengths per e.last_timestamp e.periodic_support ts) := by
  induction ts with
  | nil =>
    intro e
    simp only [List.foldl_nil, runLengths, rpFlushEntry, mrOfRuns]
    split <;> simp
  | cons t ts ih =>
    intro e
    simp only [List.foldl_cons, runLengths, rpListUpdate]
    by_cases hgap : t - e.last_timestamp ≤ per
    · rw [if_pos hgap, if_pos hgap]
      exact ih _
    · rw [if_neg hgap, if_neg hgap]
      rw [ih _]
      rcases hrl : runLengths per t 1 ts with _ | ⟨L2, Ls⟩
      · exact absurd hrl (runLengths_ne_nil per t 1 ts)
      · simp only [mrOfRuns]
        omega

theorem countP_le_mrOfRuns (min_ps : Nat) (hps : 2 ≤ min_ps) (Ls : List Nat) :
    Ls.countP (fun L => decide (min_ps ≤ L)) ≤ mrOfRuns min_ps Ls := by
  induction Ls with
  | nil => simp [mrOfRuns]
  | cons L Ls ih =>
    have hcons : List.countP (fun L => decide (min_ps ≤ L)) (L :: Ls) =
        List.countP (fun L => decide (min_ps ≤ L)) Ls +
          (if min_ps ≤ L then 1 else 0) := by
      rw [List.countP_cons]
      by_cases h : min_ps ≤ L
      · simp [h]
      · simp [h]
    rcases Ls with _ | ⟨L2, Ls⟩
    · simp only [List.countP_nil] at hcons
      rw [hcons]
      by_cases h : min_ps ≤ L
      · have h1 : 1 < L := by omega
        have h2 : 1 ≤ L / min_ps := (Nat.one_le_div_iff (by omega)).2 h
        simp only [mrOfRuns, if_pos h1, if_pos h]
        omega
      · simp [mrOfRuns, h]
    · have hmr : mrOfRuns min_ps (L :: L2 :: Ls) =
          L / min_ps + mrOfRuns min_ps (L2 :: Ls) := rfl
      by_cases h : min_ps ≤ L
      · have h2 : 1 ≤ L / min_ps := (Nat.one_le_div_iff (by omega)).2 h
        rw [hcons, if_pos h, hmr]
        omega
      · have h2 : 0 ≤ L / min_ps := Nat.zero_le _
        rw [hcons, if_neg h, hmr]
        omega

/-! ### Claims C1 and C2 -/

/-- C2, counterexample: on the empty (vacuously ascending) timestamp
sequence with `per = 1`, `min_ps = 1`, `min_rec = 1`, `_get_recurrence`
returns `true` (the trailing `current_ps >= min_ps` test appends the
sentinel interval `(None, None)`), yet the sequence has no maximal runs at
all, so the claimed equivalence fails. -/
theorem C2_counterexample :
    ¬ ((getRecurrence 1 1 1 [] = true) ↔ 1 ≤ specQualRunCount 1 1 []) := by
  decide

/-- C2, amended: for every NONEMPTY ascending timestamp sequence and all
parameters `per`, `min_ps`, `min_rec`, `_get_recurrence` returns true iff
the number of maximal runs (gaps at most `per`, final open run closed and
tested the same way) of length at least `min_ps` is at least `min_rec`. -/
theorem C2_getRecurrence_iff_runs (per min_ps min_rec t : Nat) (ts : List Nat)
    (hsort : List.Sorted (· ≤ ·) (t :: ts)) :
    (getRecurrence per min_ps min_rec (t :: ts) = true ↔
      min_rec ≤ specQualRunCount per min_ps (t :: ts)) := by
  simp [getRecurrence, getRecurrenceSubDb_length_eq]

/-- C2, witness for the amended theorem at a concrete input. -/
theorem C2_witness :
    List.Sorted (· ≤ ·) [1, 5] ∧
      ((getRecurrence 2 1 1 [1, 5] = true) ↔ 1 ≤ specQualRunCount 2 1 [1, 5]) :=
  ⟨by decide, C2_getRecurrence_iff_runs 2 1 1 1 [5] (by decide)⟩

/-- C1, counterexample: the item whose ascending occurrence timestamps are
`[0, 10]`, with `per = 1`, `min_ps = 1`, `min_rec = 1`, survives the
RP-list filter (`max_recurrence = 1 ≥ min_rec`), but its exact recurrence
count computed by `_get_recurrence` is `2 > 1`: the end-of-scan flush is
guarded by `periodic_support > 1` and misses the final run of length 1,
which qualifies when `min_ps = 1`.  So the estimate is NOT an upper bound
for all positive `per`, `min_ps`, `min_rec`. -/
theorem C1_counterexample :
    List.Sorted (· < ·) [0, 10] ∧ 1 ≤ rpItemMaxRec 1 1 [0, 10] ∧
      ¬ ((getRecurrenceSubDb 1 1 [0, 10]).length ≤ rpItemMaxRec 1 1 [0, 10]) := by
  decide

/-- C1, amended: for `min_ps ≥ 2` (the regime the spec targets, `min_ps`
being a run length), for every item surviving the RP-list filter, the
exact recurrence count computed by `_get_recurrence` over the item's full
ascending timestamp sequence is at most the flushed `max_recurrence`
estimate accumulated by the RP-list scan. -/
theorem C1_estimate_upper_bound (per min_ps min_rec t : Nat) (ts : List Nat)
    (hps : 2 ≤ min_ps) (hsort : List.Sorted (· < ·) (t :: ts))
    (hsurvive : min_rec ≤ rpItemMaxRec per min_ps (t :: ts)) :
    (getRecurrenceSubDb per min_ps (t :: ts)).length ≤
      rpItemMaxRec per min_ps (t :: ts) := by
  have h1 := getRecurrenceLoop_length per min_ps ts t t 1 []
  have h2 := rpScan_maxRec_eq_mrOfRuns per min_ps ts (rpInitEntry t)
  have h3 := countP_le_mrOfRuns min_ps hps (runLengths per t 1 ts)
  simp only [getRecurrenceSubDb, rpItemMaxRec]
  rw [h1, h2]
  simpa [rpInitEntry] using h3

/-- C1, witness for the amended theorem at a concrete input. -/
theorem C1_witness :
    2 ≤ 2 ∧ List.Sorted (· < ·) [0, 1, 2, 10, 11, 12] ∧
      2 ≤ rpItemMaxRec 1 2 [0, 1, 2, 10, 11, 12] ∧
      (getRecurrenceSubDb 1 2 [0, 1, 2, 10, 11, 12]).length ≤
        rpItemMaxRec 1 2 [0, 1, 2, 10, 11, 12] :=
  ⟨le_refl 2, by decide, by decide,
    C1_estimate_upper_bound 1 2 2 0 [1, 2, 10, 11, 12] (le_refl 2)
      (by decide) (by decide)⟩

/-! ### The RP-tree (tree.py)

Items are opaque tokens with stable equality and hashing; we embed them as
natural numbers (`Item`).  The mutable node graph is embedded as an arena:
`nodes` is the list of all nodes ever created, addressed by position, with
the sentinel root at index 0.  Children maps and the `_routes` dict are
insertion-ordered association lists (Python dicts preserve insertion
order).  A route's value is the list of the ids of the nodes on the
head-to-tail neighbor chain, in insertion order: `_update_route` appends
to it exactly as the Python code extends the chain at the tail, and
`RPTree.nodes(item)` yields exactly this list (`remove_nodes` never
mutates neighbor links, so the chain seen by an in-flight generator is
this snapshot). -/

abbrev Item := Nat

structure RPNodeData where
  item : Option Item
  timestamps : List Nat
  children : List (Option Item × Nat)
  parent : Option Nat
deriving Repr, DecidableEq

def defaultNodeData : RPNodeData :=
  { item := none, timestamps := [], children := [], parent := none }

structure RPTreeSt where
  nodes : List RPNodeData
  rpList : List Item
  routes : List (Item × List Nat)
deriving Repr, DecidableEq

/-- `RPTree.__init__`: a fresh tree holding only the sentinel root. -/
def RPTreeSt.mkEmpty (rpList : List Item) : RPTreeSt :=
  { nodes := [defaultNodeData], rpList := rpList, routes := [] }

def RPTreeSt.node (s : RPTreeSt) (nid : Nat) : RPNodeData :=
  s.nodes.getD nid defaultNodeData

def RPTreeSt.setNode (s : RPTreeSt) (nid : Nat) (n : RPNodeData) : RPTreeSt :=
  { s with nodes := s.nodes.set nid n }

/-- `RPNode.get_child`. -/
def RPTreeSt.getChild (s : RPTreeSt) (nid : Nat) (item : Option Item) :
    Option Nat :=
  (s.node nid).children.lookup item

/-- `RPTree._update_route`: append the new node to its item's route
(chain tail), or start a new route. -/
def RPTreeSt.updateRoute (s : RPTreeSt) (item : Item) (nid : Nat) : RPTreeSt :=
  match s.routes.lookup item with
  | some _ =>
    { s with routes :=
        s.routes.map (fun p => if p.1 = item then (p.1, p.2 ++ [nid]) else p) }
  | none => { s with routes := s.routes ++ [(item, [nid])] }

/-- `RPTree.nodes(item)`: the nodes on the item's route; consuming the
generator raises `KeyError("Item is not in tree")` when the item has no
route entry. -/
def RPTreeSt.nodesOf (s : RPTreeSt) (item : Item) : Except String (List Nat) :=
  match s.routes.lookup item with
  | none => .error "Item is not in tree"
  | some l => .ok l

/-- `RPTree.node_count`: the number of route entries. -/
def RPTreeSt.nodeCount (s : RPTreeSt) : Nat := s.routes.length

/-- The walk of `RPTree.insert_node` (Algorithm 3) and likewise the
prefix-path insertion walk of `walk_path`: follow existing children,
creating a fresh child node (and extending its item's route) when absent;
return the final node reached.  In `insert_node` the fresh child is handed
to `RPNode.add`, which takes its first branch (the child is new, so its
item is not yet a key) and links child and parent. -/
def insertLoop (s : RPTreeSt) (cur : Nat) : List Item → RPTreeSt × Nat
  | [] => (s, cur)
  | item :: rest =>
    match s.getChild cur (some item) with
    | some nid => insertLoop s nid rest
    | none =>
      let nid := s.nodes.length
      let s1 := { s with nodes := s.nodes ++
        [({ item := some item, timestamps := [], children := [],
            parent := some cur } : RPNodeData)] }
      let s2 := s1.setNode cur
        { s1.node cur with children := (s1.node cur).children ++ [(some item, nid)] }
      let s3 := s2.updateRoute item nid
      insertLoop s3 nid rest

/-- `RPTree.insert_node(items, timestamp)`: walk/create the path, then
append the timestamp to the terminal node reached (the root itself when
`items` is empty). -/
def RPTreeSt.insertNode (s : RPTreeSt) (items : List Item) (timestamp : Nat) :
    RPTreeSt :=
  let r := insertLoop s 0 items
  r.1.setNode r.2
    { r.1.node r.2 with timestamps := (r.1.node r.2).timestamps ++ [timestamp] }

/-- `RPNode.add(child)` on an arena node: if the child's item is not yet a
key of `self._children`, link it as a child; otherwise merge, adding
`set(child._timestamps) - set(self._timestamps)` to the EXISTING child's
timestamps (note: the difference is taken against self's — the parent's —
timestamps, and the incoming child's own children are dropped).  The
Python set difference enumerates in unspecified order; every consumer of
node timestamps either sorts or counts them, so we keep the child's
first-occurrence order. -/
def RPTreeSt.nodeAdd (s : RPTreeSt) (selfId childId : Nat) : RPTreeSt :=
  let ci := (s.node childId).item
  match s.getChild selfId ci with
  | none =>
    let s1 := s.setNode selfId
      { s.node selfId with children := (s.node selfId).children ++ [(ci, childId)] }
    s1.setNode childId { s1.node childId with parent := some selfId }
  | some exId =>
    let newTs := ((s.node childId).timestamps.dedup).filter
      (fun t => !((s.node selfId).timestamps.contains t))
    s.setNode exId
      { s.node exId with timestamps := (s.node exId).timestamps ++ newTs }

/-- `RPNode.remove(child)`: raises when the child's item is not a key of
`self._children`; otherwise, when the child is not a leaf, re-parents each
of the child's children to `self._children[child.item].parent` via
`RPNode.add` (raising if that parent is `None`), then sets the stored
child's parent to `None` and deletes the key. -/
def RPTreeSt.nodeRemove (s : RPTreeSt) (selfId childId : Nat) :
    Except String RPTreeSt := do
  let ci := (s.node childId).item
  match s.getChild selfId ci with
  | none => .error "Item is not a child of given element"
  | some storedId =>
    let s1 ←
      if (s.node childId).children.isEmpty then
        pure s
      else
        match (s.node storedId).parent with
        | none => Except.error "NoneType has no attribute add"
        | some parentId =>
          pure ((s.node childId).children.foldl
            (fun acc pc => acc.nodeAdd parentId pc.2) s)
    let s2 := s1.setNode storedId { s1.node storedId with parent := none }
    .ok (s2.setNode selfId
      { s2.node selfId with
          children := (s2.node selfId).children.filter (fun pc => pc.1 ≠ ci) })

/-- The loop body of `RPTree.remove_nodes`: for each node on the route,
push its timestamps to its parent unless the parent is the root, then
`parent.remove(node)`. -/
def removeNodesLoop (s : RPTreeSt) : List Nat → Except String RPTreeSt
  | [] => .ok s
  | nid :: rest =>
    match (s.node nid).parent with
    | none => .error "NoneType has no attribute root"
    | some pid =>
      let s1 :=
        if (s.node pid).item = none then s
        else s.setNode pid
          { s.node pid with
              timestamps := (s.node pid).timestamps ++ (s.node nid).timestamps }
      match s1.nodeRemove pid nid with
      | .error e => .error e
      | .ok s2 => removeNodesLoop s2 rest

/-- `RPTree.remove_nodes(item)`: iterate the item's route (raising
`KeyError` when absent), then delete the route entry. -/
def RPTreeSt.removeNodes (s : RPTreeSt) (item : Item) : Except String RPTreeSt := do
  let nids ← s.nodesOf item
  let s1 ← removeNodesLoop s nids
  .ok { s1 with routes := s1.routes.filter (fun p => p.1 ≠ item) }

/-! ### `RPTree.prefix_tree` (tree.py 79-120) -/

/-- The `while node and not node.root` upward walk of `walk_path`,
collecting the ids of the visited (non-root) nodes.  The fuel bounds the
parent chain; it is called with the arena size, which always dominates
the chain length because every parent id is smaller than its child's id
in every state the operations produce. -/
def walkUp (s : RPTreeSt) : Nat → Option Nat → List Nat
  | 0, _ => []
  | _, none => []
  | fuel + 1, some nid =>
    if (s.node nid).item = none then []
    else nid :: walkUp s fuel (s.node nid).parent

/-- Update of the `temp_transactions` dict for one path node:
`temp[node.item] += current_ts` or `temp[node.item] = current_ts`. -/
def tempAdd (temp : List (Item × List Nat)) (item : Item) (ts : List Nat) :
    List (Item × List Nat) :=
  match temp.lookup item with
  | some _ => temp.map (fun p => if p.1 = item then (p.1, p.2 ++ ts) else p)
  | none => temp ++ [(item, ts)]

/-- `walk_path(node, temp_transactions, prefix_tree)`: walk up from the
occurrence node, merge the occurrence node's timestamps into the per-item
map for every item on the path, insert the reversed ancestor path
`path[1:]` into the prefix tree (the same walk/create loop as
`insert_node`), and graft `path[0].timestamps` onto the terminal node
reached (the prefix tree's root itself when the path has length 1). -/
def walkPath (s : RPTreeSt) (nid : Nat)
    (acc : List (Item × List Nat) × RPTreeSt) :
    List (Item × List Nat) × RPTreeSt :=
  let pathIds := walkUp s s.nodes.length (some nid)
  let currentTs := (s.node nid).timestamps
  let temp1 := pathIds.foldl
    (fun tp i => tempAdd tp ((s.node i).item.getD 0) currentTs) acc.1
  match pathIds with
  | [] => (temp1, acc.2)
  | p0 :: restPath =>
    let ancestors := restPath.reverse.map (fun i => (s.node i).item.getD 0)
    let r := insertLoop acc.2 0 ancestors
    (temp1, r.1.setNode r.2
      { r.1.node r.2 with
          timestamps := (r.1.node r.2).timestamps ++ (s.node p0).timestamps })

/-- `RPTree.prefix_tree(item)`: fold `walk_path` over the item's route,
starting from an empty temp map and a fresh tree sharing the RP-list. -/
def RPTreeSt.prefixTree (s : RPTreeSt) (item : Item) :
    Except String (List (Item × List Nat) × RPTreeSt) := do
  let nids ← s.nodesOf item
  .ok (nids.foldl (fun acc nid => walkPath s nid acc)
    ([], RPTreeSt.mkEmpty s.rpList))

/-! ### Algorithms 4 and 5: `PatternFinder._rp_growth` and the conditional
tree (rp_growth.py 83-159) -/

/-- Python's `sorted` on a timestamp list: a stable structural sort
(insertion sort; for a total order the result is the unique sorted stable
permutation, identical to `sorted`). -/
def insertSorted (a : Nat) : List Nat → List Nat
  | [] => [a]
  | b :: bs => if a ≤ b then a :: b :: bs else b :: insertSorted a bs

def sortNat (l : List Nat) : List Nat := l.foldr insertSorted []

/-- Lookup `timestamps[item]`; a missing key is a Python `KeyError`. -/
def tempGet (temp : List (Item × List Nat)) (item : Item) :
    Except String (List Nat) :=
  match temp.lookup item with
  | none => .error "KeyError in timestamps map"
  | some ts => .ok ts

/-- `del timestamps[curr_item]`. -/
def tempDelete (temp : List (Item × List Nat)) (item : Item) :
    List (Item × List Nat) :=
  temp.filter (fun p => p.1 ≠ item)

/-- `PatternFinder._construct_conditional_from_prefix`: iterate
`items_ordered()` — lazily: for each item of `reversed(rp_list)` still
having a route entry at that point — and remove the items whose sorted
timestamps fail `_get_recurrence`. -/
def condFilterLoop (per min_ps min_rec : Nat) (temp : List (Item × List Nat)) :
    RPTreeSt → List Item → Except String RPTreeSt
  | s, [] => .ok s
  | s, item :: rest =>
    if (s.routes.lookup item).isSome then do
      let ts ← tempGet temp item
      if getRecurrence per min_ps min_rec (sortNat ts) then
        condFilterLoop per min_ps min_rec temp s rest
      else do
        let s1 ← s.removeNodes item
        condFilterLoop per min_ps min_rec temp s1 rest
    else condFilterLoop per min_ps min_rec temp s rest

def constructConditionalFromPrefix (per min_ps min_rec : Nat)
    (prefixTr : RPTreeSt) (temp : List (Item × List Nat)) :
    Except String RPTreeSt :=
  condFilterLoop per min_ps min_rec temp prefixTr prefixTr.rpList.reverse

/-- The loop body of `PatternFinder._rp_growth(tree, pattern)`.  The
generator's `for node in tree.items_ordered()` loop iterates
`reversed(rp_list)` lazily, checking route membership against the current
tree state at each step; the pattern sequence is materialised eagerly
(the caller consumes the whole generator).  `recur` is the recursive call
`self._rp_growth(conditional_tree, new_pattern)`; it is instantiated by
`rpGrowthFuel` with the next-lower fuel level. -/
def rpGrowthGo (per min_ps min_rec : Nat)
    (recur : RPTreeSt → List Item → Except String (List (List Item) × RPTreeSt)) :
    RPTreeSt → List Item → List Item →
      Except String (List (List Item) × RPTreeSt)
  | tree, _, [] => .ok ([], tree)
  | tree, pattern, item :: rest =>
    if (tree.routes.lookup item).isNone then
      rpGrowthGo per min_ps min_rec recur tree pattern rest
    else do
      let tp ← tree.prefixTree item
      let tsItem ← tempGet tp.1 item
      if getRecurrence per min_ps min_rec (sortNat tsItem)
          && !(pattern.contains item) then do
        let newPattern := pattern ++ [item]
        let temp1 := tempDelete tp.1 item
        let condTree ← constructConditionalFromPrefix per min_ps min_rec
          tp.2 temp1
        let sub ←
          if 0 < condTree.nodeCount then do
            let r ← recur condTree newPattern
            pure r.1
          else pure ([] : List (List Item))
        let tree1 ← tree.removeNodes item
        let r2 ← rpGrowthGo per min_ps min_rec recur tree1 pattern rest
        .ok (newPattern :: (sub ++ r2.1), r2.2)
      else do
        let tree1 ← tree.removeNodes item
        let r2 ← rpGrowthGo per min_ps min_rec recur tree1 pattern rest
        .ok (r2.1, r2.2)

/-- `PatternFinder._rp_growth` with an explicit bound on the recursion
depth into conditional trees: at fuel 0 a recursion request fails.  The
Python recursion is unbounded; the fuel-sufficiency theorem shows that
the depth never exceeds the number of distinct RP-list items, so with
enough fuel this is the Python function. -/
def rpGrowthFuel (per min_ps min_rec : Nat) :
    Nat → RPTreeSt → List Item →
      Except String (List (List Item) × RPTreeSt)
  | 0, tree, pattern =>
    rpGrowthGo per min_ps min_rec
      (fun _ _ => .error "recursion fuel exhausted")
      tree pattern tree.rpList.reverse
  | fuel + 1, tree, pattern =>
    rpGrowthGo per min_ps min_rec
      (rpGrowthFuel per min_ps min_rec fuel)
      tree pattern tree.rpList.reverse

/-! ### Algorithm 1 over the whole database and the top-level entry point
(`PatternFinder.find_recurring_patterns`) -/

/-- The transactional database: an insertion-ordered mapping from
timestamp to item list; the caller contract is ascending-timestamp
iteration order. -/
abbrev TDB := List (Nat × List Item)

/-- One `(timestamp, item)` step of the RP-list scan (rp_growth.py
18-36). -/
def rpListStepItem (per min_ps : Nat) (timestamp : Nat)
    (rp : List (Item × RPItemEntry)) (item : Item) :
    List (Item × RPItemEntry) :=
  match rp.lookup item with
  | none => rp ++ [(item, rpInitEntry timestamp)]
  | some _ =>
    rp.map (fun p =>
      if p.1 = item then (p.1, rpListUpdate per min_ps p.2 timestamp) else p)

/-- The full RP-list scan over the database. -/
def rpListScan (per min_ps : Nat) (tdb : TDB) : List (Item × RPItemEntry) :=
  tdb.foldl (fun rp txn => txn.2.foldl (rpListStepItem per min_ps txn.1) rp) []

/-- The sort key comparison `(-support, item)` of rp_growth.py 57-59, as a
total `le` on entries (items are distinct, so ties cannot occur). -/
def rpKeyLe (a b : Item × RPItemEntry) : Bool :=
  b.2.support < a.2.support || (a.2.support == b.2.support && a.1 ≤ b.1)

def insertSortedEntry (a : Item × RPItemEntry) :
    List (Item × RPItemEntry) → List (Item × RPItemEntry)
  | [] => [a]
  | b :: bs => if rpKeyLe a b then a :: b :: bs else b :: insertSortedEntry a bs

/-- The flushed, filtered, sorted `final_rp_list` (rp_growth.py 38-59): a
list of items sorted by support descending, item ascending. -/
def buildFinalRpList (per min_ps min_rec : Nat) (tdb : TDB) : List Item :=
  let flushed := (rpListScan per min_ps tdb).map
    (fun p => (p.1, rpFlushEntry min_ps p.2))
  let final := flushed.filter (fun p => min_rec ≤ p.2.max_recurrence)
  (final.foldr insertSortedEntry []).map (fun p => p.1)

/-- The tree-building loop (rp_growth.py 62-73): each transaction's items
are filtered to RP-list membership in RP-list order, then inserted. -/
def buildTree (finalRpList : List Item) (tdb : TDB) : RPTreeSt :=
  tdb.foldl
    (fun t txn => t.insertNode (finalRpList.filter (fun i => txn.2.contains i)) txn.1)
    (RPTreeSt.mkEmpty finalRpList)

/-- `PatternFinder.find_recurring_patterns`. -/
def findRecurringPatterns (per min_ps min_rec : Nat) (tdb : TDB) :
    Except String (List (List Item)) := do
  let finalRpList := buildFinalRpList per min_ps min_rec tdb
  let tree := buildTree finalRpList tdb
  let r ← rpGrowthFuel per min_ps min_rec finalRpList.length tree []
  .ok r.1

/-! ### Liveness and timestamp accounting (for claim C3)

A node is in the tree when it is connected to the root: following parent
references upward reaches the sentinel root, with every hop registered in
the parent's children map.  In every state produced by the operations a
parent's id is smaller than its child's id, so the arena size bounds the
chain length. -/

def isLive (s : RPTreeSt) : Nat → Nat → Bool
  | 0, _ => false
  | fuel + 1, nid =>
    if nid = 0 then true
    else
      match (s.node nid).parent with
      | none => false
      | some pid =>
        ((s.node pid).children.lookup (s.node nid).item == some nid)
          && isLive s fuel pid

/-- Total number of timestamps held by the nodes of the tree (root
included). -/
def RPTreeSt.liveTsCount (s : RPTreeSt) : Nat :=
  ((List.range s.nodes.length).map
    (fun nid => if isLive s s.nodes.length nid
      then (s.node nid).timestamps.length else 0)).sum

/-! ### Claims C3, C4, C5, C6, C9, C10 -/

/-- The C3 failing input: insert the transactions `{A, X, Y, Z}` at
timestamp 1 and `{A, Y}` at timestamp 2 (items A=1, X=2, Y=3, Z=4, in
RP-list order), then call `remove_nodes` on X. -/
def c3Tree : RPTreeSt :=
  ((RPTreeSt.mkEmpty [1, 2, 3, 4]).insertNode [1, 2, 3, 4] 1).insertNode [1, 3] 2

/-- C3: the tree built from the two transactions holds 2 timestamps; the
single node of item 2 has the non-root node 1 as parent, so by the claim
no timestamp may be discarded by `remove_nodes 2`; yet after the call
only 1 timestamp remains in the tree: timestamp 1 is silently lost
(`RPNode.remove` re-parents the removed node's children through
`RPNode.add`, whose merge branch drops the incoming node's subtree).
The claimed conservation equation `remaining + discarded-at-root = total`
fails: `1 + 0 ≠ 2`. -/
theorem C3_conservation_violated :
    c3Tree.liveTsCount = 2 ∧
      c3Tree.nodesOf 2 = .ok [2] ∧
      (c3Tree.node 2).parent = some 1 ∧
      (c3Tree.node 1).item = some 1 ∧
      (c3Tree.removeNodes 2).map RPTreeSt.liveTsCount = .ok 1 :=
  ⟨rfl, rfl, rfl, rfl, rfl⟩

/-- C4, counterexample: `insert_node` with an item list that is empty
after RP-list filtering appends the transaction's timestamp to the
sentinel root, so the root's timestamp collection is NOT empty in every
reachable state. -/
theorem C4_counterexample :
    (((RPTreeSt.mkEmpty [1]).insertNode [] 5).node 0).timestamps ≠ [] ∧
      (((RPTreeSt.mkEmpty [1]).insertNode [] 5).node 0).timestamps = [5] :=
  ⟨by decide, rfl⟩

/-- C4, amended: the sentinel root never gains an item label, but
`insert_node` with an empty item list appends the timestamp to the root's
timestamp collection (the walk ends on the root itself). -/
theorem C4_root_after_empty_insert (s : RPTreeSt) (ts : Nat)
    (h : s.nodes ≠ []) :
    ((s.insertNode [] ts).node 0).timestamps = (s.node 0).timestamps ++ [ts] ∧
      ((s.insertNode [] ts).node 0).item = (s.node 0).item := by
  have hlen : 0 < s.nodes.length := List.length_pos.2 h
  have hnode : (s.insertNode [] ts).node 0 =
      { s.node 0 with timestamps := (s.node 0).timestamps ++ [ts] } := by
    simp [RPTreeSt.insertNode, insertLoop, RPTreeSt.setNode, RPTreeSt.node,
      List.getD, hlen]
  rw [hnode]
  exact ⟨rfl, rfl⟩

/-- C4, witness for the amended theorem at a concrete state. -/
theorem C4_witness :
    (RPTreeSt.mkEmpty [3]).nodes ≠ [] ∧
      (((RPTreeSt.mkEmpty [3]).insertNode [] 7).node 0).timestamps =
        ((RPTreeSt.mkEmpty [3]).node 0).timestamps ++ [7] ∧
      (((RPTreeSt.mkEmpty [3]).insertNode [] 7).node 0).item =
        ((RPTreeSt.mkEmpty [3]).node 0).item :=
  ⟨by decide, C4_root_after_empty_insert (RPTreeSt.mkEmpty [3]) 7 (by decide)⟩

/-- C5: `PatternFinder.__init__` and `find_recurring_patterns` contain no
validation whatsoever: with the non-positive `per = 0` (and `min_ps = 1`,
`min_rec = 1`) the miner silently proceeds through both scans and the
pattern growth and returns the pattern `[[1]]` for the database
`{1: [1], 2: [1]}`, instead of raising a validation error at entry. -/
theorem C5_no_validation :
    findRecurringPatterns 0 1 1 [(1, [1]), (2, [1])] = .ok [[1]] := by rfl

/-- The C6 failing database (items D=1, A=2, B=3, C=4, X=5): six
transactions containing X, interleaved so that every pairwise timestamp
set has three qualifying runs, plus four `{A}` transactions tuning A's
`max_recurrence` to exactly 2 and three `{D}` transactions keeping D's
support on top. -/
def c6Db : TDB :=
  [(10, [1, 2, 3, 4, 5]), (11, [1, 3, 4, 5]), (20, [1, 2, 3, 4, 5]),
   (21, [1, 3, 4, 5]), (30, [1, 2, 3, 4, 5]), (31, [1, 3, 4, 5]),
   (40, [2]), (41, [2]), (50, [2]), (51, [2]),
   (60, [1]), (61, [1]), (62, [1])]

/-- C6: on `c6Db` with `per = 1`, `min_ps = 2`, the run with
`min_rec = 3` discovers the patterns `[5, 4, 1]`, `[5, 4, 3, 1]`,
`[5, 3, 1]` and `[5, 1]`, none of which is discovered with
`min_rec = 2` — the result is NOT antitone in `min_rec`.  With
`min_rec = 2` the item A (= 2) additionally survives the RP-list filter;
when A is then removed from conditional trees (its conditional recurrence
test fails), the `RPNode.add` merge slip detaches subtrees and loses
their ancestor linkage, so the deeper tests under-count and the four
patterns disappear. -/
theorem C6_monotonicity_violated :
    findRecurringPatterns 1 2 2 c6Db =
      .ok [[5], [5, 4], [5, 4, 3], [5, 3], [4], [4, 3], [4, 3, 1], [4, 1],
           [3], [3, 1], [2], [1]] ∧
      findRecurringPatterns 1 2 3 c6Db =
        .ok [[5], [5, 4], [5, 4, 3], [5, 4, 3, 1], [5, 4, 1], [5, 3],
             [5, 3, 1], [5, 1], [4], [4, 3], [4, 3, 1], [4, 1], [3],
             [3, 1], [1]] :=
  ⟨rfl, rfl⟩

/-- C9: for an item with no route entry, both `RPTree.nodes(item)` (once
the returned generator is consumed) and `RPTree.remove_nodes(item)`
(which consumes it) raise `KeyError("Item is not in tree")` rather than
acting as a no-op. -/
theorem C9_missing_item_keyerror (s : RPTreeSt) (item : Item)
    (h : s.routes.lookup item = none) :
    s.nodesOf item = .error "Item is not in tree" ∧
      s.removeNodes item = .error "Item is not in tree" := by
  have hn : s.nodesOf item = .error "Item is not in tree" := by
    simp [RPTreeSt.nodesOf, h]
  refine ⟨hn, ?_⟩
  simp only [RPTreeSt.removeNodes, hn]
  rfl

/-- C9, witness: the fresh tree has no route for item 1. -/
theorem C9_witness :
    (RPTreeSt.mkEmpty [1]).routes.lookup 1 = none ∧
      (RPTreeSt.mkEmpty [1]).nodesOf 1 = .error "Item is not in tree" ∧
      (RPTreeSt.mkEmpty [1]).removeNodes 1 = .error "Item is not in tree" :=
  ⟨rfl, C9_missing_item_keyerror (RPTreeSt.mkEmpty [1]) 1 rfl⟩

/-- The `PatternFinder` object state: `__init__` stores the database and
the three parameters; no other method assigns to any of them. -/
structure PatternFinder where
  tdb : TDB
  per : Nat
  min_ps : Nat
  min_rec : Nat
deriving Repr, DecidableEq

/-- `find_recurring_patterns` as a state-threaded method call: the method
reads `self.tdb` (twice, via `.items()` iteration, which does not mutate),
`self.per`, `self.min_ps` and `self.min_rec`, performs all mutation on
the freshly built tree, and returns the pattern list together with the
object state it leaves behind — the unchanged `self`.  No statement of
the method (or of the tree code it calls) assigns to `self._tdb` or to
any structure reachable from it: `sorted_items` is a fresh list of item
tokens, and node timestamp lists are created inside the tree. -/
def findRecurringPatternsMethod (pf : PatternFinder) :
    Except String (List (List Item)) × PatternFinder :=
  (findRecurringPatterns pf.per pf.min_ps pf.min_rec pf.tdb, pf)

/-- C10: after `find_recurring_patterns` returns, the database bound in
the finder state is exactly the one it started with (same timestamps
bound to the same item collections). -/
theorem C10_tdb_unchanged (pf : PatternFinder) :
    ((findRecurringPatternsMethod pf).2).tdb = pf.tdb := rfl

/-! ### Well-formedness of tree states

The states produced by the operations satisfy a structural invariant:
parent ids are smaller than child ids (so upward walks terminate within
the arena size), items strictly increase in RP-list position downward
along both parent and child edges, children keys carry the child's item,
routes list exactly nodes of their item, and every route node is linked
consistently into its parent's children map.  These invariants are what
make pattern growth terminate within `rpList.length` recursion levels and
produce distinct patterns. -/

def idxI (s : RPTreeSt) (a : Item) : Nat := s.rpList.indexOf a

def CoherentAt (s : RPTreeSt) (n : Nat) (b : Item) : Prop :=
  ∃ pid, (s.node n).parent = some pid ∧
    (s.node pid).children.lookup (some b) = some n

structure WfB (s : RPTreeSt) : Prop where
  nonnil : s.nodes ≠ []
  rootItem : (s.node 0).item = none
  parLt : ∀ n pid, (s.node n).parent = some pid → pid < n
  parIdx : ∀ n pid a b, (s.node n).parent = some pid →
    (s.node n).item = some a → (s.node pid).item = some b →
    idxI s b < idxI s a
  itemMem : ∀ n a, (s.node n).item = some a → a ∈ s.rpList
  childItem : ∀ n k c, (k, c) ∈ (s.node n).children →
    ∃ x, k = some x ∧ (s.node c).item = some x
  childGt : ∀ n k c, (k, c) ∈ (s.node n).children → n < c
  childIdx : ∀ n k c a x, (k, c) ∈ (s.node n).children →
    (s.node n).item = some a → k = some x → idxI s a < idxI s x

structure RouteOk (s : RPTreeSt) (p : Item × List Nat) : Prop where
  mem : p.1 ∈ s.rpList
  nonnil : p.2 ≠ []
  nodup : p.2.Nodup
  valid : ∀ n ∈ p.2, n < s.nodes.length
  label : ∀ n ∈ p.2, (s.node n).item = some p.1
  coh : ∀ n ∈ p.2, CoherentAt s n p.1

def Wf (s : RPTreeSt) : Prop := WfB s ∧ ∀ p ∈ s.routes, RouteOk s p

/-! #### Generic list and arena access lemmas -/

theorem lookup_append {α β : Type} [BEq α] (l1 l2 : List (α × β)) (k : α) :
    (l1 ++ l2).lookup k =
      match l1.lookup k with
      | some v => some v
      | none => l2.lookup k := by
  induction l1 with
  | nil => simp [List.lookup]
  | cons p l1 ih =>
    simp only [List.cons_append, List.lookup]
    by_cases h : (k == p.1) = true
    · simp [h]
    · simp only [h]
      exact ih

theorem lookup_mem {α β : Type} [BEq α] [LawfulBEq α] (l : List (α × β))
    (k : α) (v : β) (h : l.lookup k = some v) : (k, v) ∈ l := by
  induction l with
  | nil => simp [List.lookup] at h
  | cons p l ih =>
    simp only [List.lookup] at h
    by_cases hk : (k == p.1) = true
    · simp only [hk] at h
      cases h
      have : k = p.1 := by simpa using hk
      subst this
      simp
    · simp only [hk] at h
      exact List.mem_cons_of_mem _ (ih h)

theorem node_set_self (s : RPTreeSt) (n : Nat) (d : RPNodeData)
    (h : n < s.nodes.length) : (s.setNode n d).node n = d := by
  simp [RPTreeSt.setNode, RPTreeSt.node, List.getD, h]

theorem node_set_other (s : RPTreeSt) (n m : Nat) (d : RPNodeData)
    (h : m ≠ n) : (s.setNode n d).node m = s.node m := by
  simp [RPTreeSt.setNode, RPTreeSt.node, List.getD, List.getElem?_set_ne
    (Ne.symm h)]

theorem setNode_length (s : RPTreeSt) (n : Nat) (d : RPNodeData) :
    (s.setNode n d).nodes.length = s.nodes.length := by
  simp [RPTreeSt.setNode]

theorem setNode_rpList (s : RPTreeSt) (n : Nat) (d : RPNodeData) :
    (s.setNode n d).rpList = s.rpList := rfl

theorem setNode_routes (s : RPTreeSt) (n : Nat) (d : RPNodeData) :
    (s.setNode n d).routes = s.routes := rfl

theorem node_append_old (s : RPTreeSt) (d : RPNodeData) (n : Nat)
    (h : n < s.nodes.length) :
    RPTreeSt.node { s with nodes := s.nodes ++ [d] } n = s.node n := by
  simp [RPTreeSt.node, List.getD, List.getElem?_append, h]

theorem node_append_new (s : RPTreeSt) (d : RPNodeData) :
    RPTreeSt.node { s with nodes := s.nodes ++ [d] } s.nodes.length = d := by
  simp [RPTreeSt.node, List.getD]

theorem node_default_of_ge (s : RPTreeSt) (n : Nat)
    (h : s.nodes.length ≤ n) : s.node n = defaultNodeData := by
  simp [RPTreeSt.node, List.getD, List.getElem?_eq_none h]

theorem child_lt_length (s : RPTreeSt) (hwf : WfB s) {n : Nat}
    {k : Option Item} {c : Nat} (h : (k, c) ∈ (s.node n).children) :
    c < s.nodes.length := by
  obtain ⟨x, _, hc⟩ := hwf.childItem n k c h
  by_contra hge
  push_neg at hge
  rw [node_default_of_ge s c hge] at hc
  simp [defaultNodeData] at hc

theorem item_lt_length (s : RPTreeSt) {n : Nat} {a : Item}
    (h : (s.node n).item = some a) : n < s.nodes.length := by
  by_contra hge
  push_neg at hge
  rw [node_default_of_ge s n hge] at h
  simp [defaultNodeData] at h

/-! #### Upward walks -/

/-- A labelled parent chain whose items strictly descend in RP-list
position below `a`. -/
def ItemsDesc (s : RPTreeSt) : Item → List Nat → Prop
  | _, [] => True
  | a, j :: js => ∃ b, (s.node j).item = some b ∧ b ∈ s.rpList ∧
      idxI s b < idxI s a ∧ ItemsDesc s b js

theorem ItemsDesc_lt (s : RPTreeSt) :
    ∀ (js : List Nat) (a : Item), ItemsDesc s a js →
      ∀ j ∈ js, ∃ b, (s.node j).item = some b ∧ b ∈ s.rpList ∧
        idxI s b < idxI s a := by
  intro js
  induction js with
  | nil => intro a _ j hj; simp at hj
  | cons j0 js ih =>
    intro a hdesc j hj
    obtain ⟨b, hb1, hb2, hb3, hbrest⟩ := hdesc
    rcases List.mem_cons.1 hj with rfl | hj2
    · exact ⟨b, hb1, hb2, hb3⟩
    · obtain ⟨c, hc1, hc2, hc3⟩ := ih b hbrest j hj2
      exact ⟨c, hc1, hc2, by omega⟩

theorem walkUp_none (s : RPTreeSt) (fuel : Nat) :
    walkUp s fuel none = [] := by
  cases fuel <;> simp [walkUp]

theorem walkUp_spec (s : RPTreeSt) (hwf : WfB s) :
    ∀ (fuel nid : Nat) (a : Item), nid < fuel → (s.node nid).item = some a →
      ∃ rest, walkUp s fuel (some nid) = nid :: rest ∧ ItemsDesc s a rest := by
  intro fuel
  induction fuel with
  | zero => intro nid a h; omega
  | succ fuel ih =>
    intro nid a hlt hitem
    have hne : ¬ (s.node nid).item = none := by simp [hitem]
    simp only [walkUp, if_neg hne]
    rcases hp : (s.node nid).parent with _ | pid
    · exact ⟨[], by rw [walkUp_none], trivial⟩
    · have hpidlt : pid < nid := hwf.parLt nid pid hp
      rcases hpi : (s.node pid).item with _ | b
      · refine ⟨[], ?_, trivial⟩
        have : pid < fuel := by omega
        rcases fuel with _ | fuel
        · omega
        · simp [walkUp, hpi]
      · obtain ⟨rest2, hw, hdesc⟩ := ih pid b (by omega) hpi
        refine ⟨pid :: rest2, by rw [hw], ?_⟩
        exact ⟨b, hpi, hwf.itemMem pid b hpi, hwf.parIdx nid pid a b hp hitem hpi,
          hdesc⟩

/-! #### Ascending insertion chains -/

/-- Precondition of the insertion walk: the items to insert are RP-list
members whose positions strictly ascend, starting strictly below the
(optional) item of the node the walk stands on. -/
def ItemsAsc (s : RPTreeSt) : Option Item → List Item → Prop
  | _, [] => True
  | o, x :: xs => x ∈ s.rpList ∧ (∀ b, o = some b → idxI s b < idxI s x) ∧
      ItemsAsc s (some x) xs

theorem ItemsAsc_congr (s s2 : RPTreeSt) (h : s2.rpList = s.rpList) :
    ∀ (l : List Item) (o : Option Item), ItemsAsc s o l → ItemsAsc s2 o l := by
  intro l
  induction l with
  | nil => intro o _; trivial
  | cons x xs ih =>
    intro o ha
    obtain ⟨h1, h2, h3⟩ := ha
    exact ⟨by rw [h]; exact h1,
      fun b hb => by rw [show idxI s2 b = idxI s b from by simp [idxI, h],
        show idxI s2 x = idxI s x from by simp [idxI, h]]; exact h2 b hb,
      ih (some x) h3⟩

theorem ItemsAsc_append_one (s : RPTreeSt) (x : Item) (hx : x ∈ s.rpList) :
    ∀ (l : List Item) (o : Option Item), ItemsAsc s o l →
      (∀ b, o = some b → idxI s b < idxI s x) →
      (∀ y ∈ l, idxI s y < idxI s x) →
      ItemsAsc s o (l ++ [x]) := by
  intro l
  induction l with
  | nil => intro o _ ho _; exact ⟨hx, ho, trivial⟩
  | cons y l ih =>
    intro o ha ho hall
    obtain ⟨h1, h2, h3⟩ := ha
    refine ⟨h1, h2, ih (some y) h3 ?_ ?_⟩
    · intro b hb
      cases hb
      exact hall y (by simp)
    · intro z hz
      exact hall z (by simp [hz])

/-- The reversed ancestor chain of an upward walk is a valid insertion
chain, and all of its items sit strictly below `a`. -/
theorem ItemsDesc_reverse_asc (s : RPTreeSt) :
    ∀ (js : List Nat) (a : Item), ItemsDesc s a js →
      ItemsAsc s none (js.reverse.map (fun j => (s.node j).item.getD 0)) ∧
      ∀ x ∈ js.reverse.map (fun j => (s.node j).item.getD 0),
        idxI s x < idxI s a := by
  intro js
  induction js with
  | nil => intro a _; exact ⟨trivial, by simp⟩
  | cons j js ih =>
    intro a hdesc
    obtain ⟨b, hb1, hb2, hb3, hbrest⟩ := hdesc
    obtain ⟨iha, ihb⟩ := ih b hbrest
    have hmap : (j :: js).reverse.map (fun j => (s.node j).item.getD 0) =
        js.reverse.map (fun j => (s.node j).item.getD 0) ++ [b] := by
      simp [hb1]
    constructor
    · rw [hmap]
      refine ItemsAsc_append_one s b hb2 _ none iha (by simp) ?_
      intro y hy
      have := ihb y hy
      omega
    · rw [hmap]
      intro x hx
      rcases List.mem_append.1 hx with hx1 | hx2
      · have := ihb x hx1
        omega
      · simp at hx2
        subst hx2
        exact hb3

/-! #### The insertion walk -/

theorem insertLoop_cons_some (s : RPTreeSt) (cur : Nat) (item : Item)
    (rest : List Item) (nid : Nat)
    (h : s.getChild cur (some item) = some nid) :
    insertLoop s cur (item :: rest) = insertLoop s nid rest := by
  simp only [insertLoop, h]

/-- The state built by the `get_child = None` branch of the walk:
the fresh node, the parent's extended children map, the extended route. -/
def insertStep (s : RPTreeSt) (cur : Nat) (item : Item) : RPTreeSt :=
  let nid := s.nodes.length
  let s1 : RPTreeSt := { s with nodes := s.nodes ++
    [({ item := some item, timestamps := [], children := [],
        parent := some cur } : RPNodeData)] }
  let s2 := s1.setNode cur
    { s1.node cur with children := (s1.node cur).children ++ [(some item, nid)] }
  s2.updateRoute item nid

theorem insertLoop_cons_none (s : RPTreeSt) (cur : Nat) (item : Item)
    (rest : List Item)
    (h : s.getChild cur (some item) = none) :
    insertLoop s cur (item :: rest) =
      insertLoop (insertStep s cur item) s.nodes.length rest := by
  simp only [insertLoop, h, insertStep]

theorem updateRoute_nodes (s : RPTreeSt) (a : Item) (nid : Nat) :
    (s.updateRoute a nid).nodes = s.nodes := by
  unfold RPTreeSt.updateRoute
  split
  · rfl
  · rfl

theorem updateRoute_rpList (s : RPTreeSt) (a : Item) (nid : Nat) :
    (s.updateRoute a nid).rpList = s.rpList := by
  unfold RPTreeSt.updateRoute
  split
  · rfl
  · rfl

theorem lookup_none_forall {α β : Type} [BEq α] [LawfulBEq α]
    (l : List (α × β)) (k : α) (h : l.lookup k = none) :
    ∀ p ∈ l, p.1 ≠ k := by
  induction l with
  | nil => simp
  | cons p0 l ih =>
    simp only [List.lookup] at h
    by_cases hk : (k == p0.1) = true
    · simp [hk] at h
    · intro p hp
      rcases List.mem_cons.1 hp with rfl | hp2
      · intro he
        apply hk
        simp [he]
      · exact ih (by simpa [hk] using h) p hp2

theorem updateRoute_mem (s : RPTreeSt) (a : Item) (nid : Nat)
    (q : Item × List Nat) (hq : q ∈ (s.updateRoute a nid).routes) :
    (∃ p ∈ s.routes, p.1 ≠ a ∧ q = p) ∨
    (∃ p ∈ s.routes, p.1 = a ∧ q = (p.1, p.2 ++ [nid])) ∨
    ((∀ p ∈ s.routes, p.1 ≠ a) ∧ q = (a, [nid])) := by
  unfold RPTreeSt.updateRoute at hq
  rcases hl : s.routes.lookup a with _ | l
  · rw [hl] at hq
    simp only at hq
    rcases List.mem_append.1 hq with h1 | h2
    · exact Or.inl ⟨q, h1, (lookup_none_forall s.routes a hl q h1), rfl⟩
    · simp at h2
      exact Or.inr (Or.inr ⟨lookup_none_forall s.routes a hl, h2⟩)
  · rw [hl] at hq
    simp only [List.mem_map] at hq
    obtain ⟨p, hp, hfp⟩ := hq
    by_cases hpa : p.1 = a
    · rw [if_pos hpa] at hfp
      exact Or.inr (Or.inl ⟨p, hp, hpa, hfp.symm⟩)
    · rw [if_neg hpa] at hfp
      exact Or.inl ⟨p, hp, hpa, hfp.symm⟩

theorem updateRoute_node (s : RPTreeSt) (a : Item) (m n : Nat) :
    (s.updateRoute a m).node n = s.node n := by
  simp [RPTreeSt.node, updateRoute_nodes]

theorem idxI_congr (s s2 : RPTreeSt) (h : s2.rpList = s.rpList) (a : Item) :
    idxI s2 a = idxI s a := by
  simp [idxI, h]

theorem insertStep_spec (s : RPTreeSt) (hwf : Wf s) (cur : Nat) (item : Item)
    (hcur : cur < s.nodes.length)
    (hgc : s.getChild cur (some item) = none)
    (hmem : item ∈ s.rpList)
    (hlt : ∀ b, (s.node cur).item = some b → idxI s b < idxI s item) :
    Wf (insertStep s cur item) ∧
    (insertStep s cur item).rpList = s.rpList ∧
    (insertStep s cur item).nodes.length = s.nodes.length + 1 ∧
    ((insertStep s cur item).node s.nodes.length).item = some item ∧
    (∀ q ∈ (insertStep s cur item).routes,
      q.1 ∈ s.routes.map Prod.fst ∨ q.1 = item) := by
  obtain ⟨hwb, hwr⟩ := hwf
  set len := s.nodes.length with hlendef
  set newNode : RPNodeData :=
    { item := some item, timestamps := [], children := [],
      parent := some cur } with hnewdef
  set s1 : RPTreeSt := { s with nodes := s.nodes ++ [newNode] } with hs1def
  set s2 := s1.setNode cur
    { s1.node cur with children := (s1.node cur).children ++ [(some item, len)] }
    with hs2def
  have hs3def : insertStep s cur item = s2.updateRoute item len := rfl
  have hs1len : s1.nodes.length = len + 1 := by simp [hs1def]
  have hs2len : s2.nodes.length = len + 1 := by
    rw [hs2def, setNode_length, hs1len]
  have hs3len : (insertStep s cur item).nodes.length = len + 1 := by
    rw [hs3def]
    have := updateRoute_nodes s2 item len
    simp [RPTreeSt.nodes] at *
    rw [this, hs2len]
  have hs3rp : (insertStep s cur item).rpList = s.rpList := by
    rw [hs3def, updateRoute_rpList]
    rw [hs2def, setNode_rpList]
  have hnode3 : ∀ n, (insertStep s cur item).node n = s2.node n := by
    intro n
    rw [hs3def, updateRoute_node]
  have h1cur : s1.node cur = s.node cur := node_append_old s newNode cur hcur
  have h_cur : (insertStep s cur item).node cur =
      { s.node cur with children := (s.node cur).children ++ [(some item, len)] } := by
    rw [hnode3, hs2def, node_set_self s1 cur _ (by omega), h1cur]
  have hcne : cur ≠ len := by omega
  have h_nid : (insertStep s cur item).node len = newNode := by
    rw [hnode3, hs2def, node_set_other s1 cur len _ (Ne.symm hcne)]
    exact node_append_new s newNode
  have h_other : ∀ n, n ≠ cur → n ≠ len → (insertStep s cur item).node n = s.node n := by
    intro n hnc hnl
    rw [hnode3, hs2def, node_set_other s1 cur n _ hnc]
    rcases Nat.lt_or_ge n len with h | h
    · exact node_append_old s newNode n h
    · have h2 : len + 1 ≤ n := by omega
      rw [node_default_of_ge s1 n (by omega), node_default_of_ge s n (by omega)]
  have hitem_pres : ∀ n, n ≠ len →
      ((insertStep s cur item).node n).item = (s.node n).item := by
    intro n hnl
    by_cases hnc : n = cur
    · subst hnc
      rw [h_cur]
    · rw [h_other n hnc hnl]
  have hpar_pres : ∀ n, n ≠ len →
      ((insertStep s cur item).node n).parent = (s.node n).parent := by
    intro n hnl
    by_cases hnc : n = cur
    · subst hnc
      rw [h_cur]
    · rw [h_other n hnc hnl]
  have hidx : ∀ a, idxI (insertStep s cur item) a = idxI s a :=
    idxI_congr s _ hs3rp
  have hlen1 : 1 ≤ len := by
    have := List.length_pos.2 hwb.nonnil
    omega
  -- the new well-formedness core
  have hwb3 : WfB (insertStep s cur item) := by
    constructor
    · -- nonnil
      intro hh
      have : (insertStep s cur item).nodes.length = 0 := by rw [hh]; rfl
      omega
    · -- rootItem
      have h0l : (0 : Nat) ≠ len := by omega
      rw [hitem_pres 0 h0l]
      exact hwb.rootItem
    · -- parLt
      intro n pid hp
      by_cases hnl : n = len
      · subst hnl
        rw [h_nid] at hp
        simp [hnewdef] at hp
        omega
      · rw [hpar_pres n hnl] at hp
        exact hwb.parLt n pid hp
    · -- parIdx
      intro n pid a b hp ha hb
      rw [hidx, hidx]
      by_cases hnl : n = len
      · subst hnl
        rw [h_nid] at hp ha
        simp [hnewdef] at hp ha
        subst hp
        subst ha
        rw [hitem_pres cur (by omega)] at hb
        exact hlt b hb
      · rw [hpar_pres n hnl] at hp
        rw [hitem_pres n hnl] at ha
        have hpidn : pid < n := hwb.parLt n pid hp
        have hpidl : pid ≠ len := by
          have := item_lt_length (s := s) (n := n) (a := a) ha
          omega
        rw [hitem_pres pid hpidl] at hb
        exact hwb.parIdx n pid a b hp ha hb
    · -- itemMem
      intro n a ha
      rw [hs3rp]
      by_cases hnl : n = len
      · subst hnl
        rw [h_nid] at ha
        simp [hnewdef] at ha
        subst ha
        exact hmem
      · rw [hitem_pres n hnl] at ha
        exact hwb.itemMem n a ha
    · -- childItem
      intro n k c hkc
      by_cases hnl : n = len
      · subst hnl
        rw [h_nid] at hkc
        simp [hnewdef] at hkc
      · by_cases hnc : n = cur
        · subst hnc
          rw [h_cur] at hkc
          simp only at hkc
          rcases List.mem_append.1 hkc with hold | hnew
          · obtain ⟨x, hx1, hx2⟩ := hwb.childItem n k c hold
            refine ⟨x, hx1, ?_⟩
            have hclen : c < len := item_lt_length (s := s) hx2
            rw [hitem_pres c (by omega)]
            exact hx2
          · simp at hnew
            obtain ⟨hk, hc⟩ := hnew
            subst hk
            subst hc
            refine ⟨item, rfl, ?_⟩
            rw [h_nid]
        · rw [h_other n hnc hnl] at hkc
          obtain ⟨x, hx1, hx2⟩ := hwb.childItem n k c hkc
          have hclen : c < len := item_lt_length (s := s) hx2
          refine ⟨x, hx1, ?_⟩
          rw [hitem_pres c (by omega)]
          exact hx2
    · -- childGt
      intro n k c hkc
      by_cases hnl : n = len
      · subst hnl
        rw [h_nid] at hkc
        simp [hnewdef] at hkc
      · by_cases hnc : n = cur
        · subst hnc
          rw [h_cur] at hkc
          simp only at hkc
          rcases List.mem_append.1 hkc with hold | hnew
          · exact hwb.childGt n k c hold
          · simp at hnew
            omega
        · rw [h_other n hnc hnl] at hkc
          exact hwb.childGt n k c hkc
    · -- childIdx
      intro n k c a x hkc ha hk
      rw [hidx, hidx]
      by_cases hnl : n = len
      · subst hnl
        rw [h_nid] at hkc
        simp [hnewdef] at hkc
      · rw [hitem_pres n hnl] at ha
        by_cases hnc : n = cur
        · subst hnc
          rw [h_cur] at hkc
          simp only at hkc
          rcases List.mem_append.1 hkc with hold | hnew
          · exact hwb.childIdx n k c a x hold ha hk
          · simp at hnew
            obtain ⟨hk2, _⟩ := hnew
            subst hk
            cases hk2
            exact hlt a ha
        · rw [h_other n hnc hnl] at hkc
          exact hwb.childIdx n k c a x hkc ha hk
  refine ⟨⟨hwb3, ?_⟩, hs3rp, hs3len, by rw [h_nid], ?_⟩
  · -- routes
    intro q hq
    have hmemup := updateRoute_mem s2 item len q (by rw [← hs3def]; exact hq)
    have hs2routes : s2.routes = s.routes := by
      rw [hs2def, setNode_routes]
    rw [hs2routes] at hmemup
    -- coherence transport for an old route node
    have htrans : ∀ (b : Item) (n : Nat), n < len → b ≠ item ∨ True →
        CoherentAt s n b → CoherentAt (insertStep s cur item) n b := by
      intro b n hn _ hcoh
      obtain ⟨pid, hp1, hp2⟩ := hcoh
      refine ⟨pid, ?_, ?_⟩
      · rw [hpar_pres n (by omega)]
        exact hp1
      · have hpidn : pid < n := hwb.parLt n pid hp1
        by_cases hpc : pid = cur
        · subst hpc
          rw [h_cur]
          simp only
          rw [lookup_append]
          rw [hp2]
        · rw [h_other pid hpc (by omega)]
          exact hp2
    rcases hmemup with ⟨p, hp, hpne, rfl⟩ | ⟨p, hp, hpa, rfl⟩ | ⟨hnone, rfl⟩
    · have hro := hwr q hp
      refine ⟨by rw [hs3rp]; exact hro.mem, hro.nonnil, hro.nodup, ?_, ?_, ?_⟩
      · intro n hn
        have := hro.valid n hn
        omega
      · intro n hn
        have hnv := hro.valid n hn
        rw [hitem_pres n (by omega)]
        exact hro.label n hn
      · intro n hn
        exact htrans q.1 n (hro.valid n hn) (Or.inr trivial) (hro.coh n hn)
    · have hro := hwr p hp
      subst hpa
      refine ⟨by rw [hs3rp]; exact hro.mem, by simp, ?_, ?_, ?_, ?_⟩
      · -- nodup
        refine List.Nodup.append hro.nodup (by simp) ?_
        intro n hn1 hn2
        simp at hn2
        subst hn2
        have := hro.valid _ hn1
        omega
      · intro n hn
        rcases List.mem_append.1 hn with h1 | h2
        · have := hro.valid n h1
          omega
        · simp at h2
          omega
      · intro n hn
        rcases List.mem_append.1 hn with h1 | h2
        · have := hro.valid n h1
          rw [hitem_pres n (by omega)]
          exact hro.label n h1
        · simp at h2
          subst h2
          rw [h_nid]
      · intro n hn
        rcases List.mem_append.1 hn with h1 | h2
        · exact htrans p.1 n (hro.valid n h1) (Or.inr trivial) (hro.coh n h1)
        · simp at h2
          subst h2
          refine ⟨cur, by rw [h_nid], ?_⟩
          rw [h_cur]
          simp only
          rw [lookup_append]
          have : (s.node cur).children.lookup (some p.1) = none := hgc
          rw [this]
          simp [List.lookup]
    · refine ⟨by rw [hs3rp]; exact hmem, by simp, by simp, ?_, ?_, ?_⟩
      · intro n hn
        simp at hn
        omega
      · intro n hn
        simp at hn
        subst hn
        rw [h_nid]
      · intro n hn
        simp at hn
        subst hn
        refine ⟨cur, by rw [h_nid], ?_⟩
        rw [h_cur]
        simp only
        rw [lookup_append]
        have : (s.node cur).children.lookup (some item) = none := hgc
        rw [this]
        simp [List.lookup]
  · -- route keys
    intro q hq
    have hmemup := updateRoute_mem s2 item len q (by rw [← hs3def]; exact hq)
    have hs2routes : s2.routes = s.routes := by
      rw [hs2def, setNode_routes]
    rw [hs2routes] at hmemup
    rcases hmemup with ⟨p, hp, _, rfl⟩ | ⟨p, hp, hpa, rfl⟩ | ⟨_, rfl⟩
    · exact Or.inl (List.mem_map.2 ⟨q, hp, rfl⟩)
    · exact Or.inr hpa
    · exact Or.inr rfl

theorem insertLoop_spec :
    ∀ (items : List Item) (s : RPTreeSt), Wf s →
      ∀ cur, cur < s.nodes.length →
        ItemsAsc s ((s.node cur).item) items →
        Wf (insertLoop s cur items).1 ∧
        (insertLoop s cur items).1.rpList = s.rpList ∧
        s.nodes.length ≤ (insertLoop s cur items).1.nodes.length ∧
        (insertLoop s cur items).2 < (insertLoop s cur items).1.nodes.length ∧
        (∀ q ∈ (insertLoop s cur items).1.routes,
          q.1 ∈ s.routes.map Prod.fst ∨ q.1 ∈ items) := by
  intro items
  induction items with
  | nil =>
    intro s hwf cur hcur _
    refine ⟨hwf, rfl, le_refl _, hcur, ?_⟩
    intro q hq
    exact Or.inl (List.mem_map.2 ⟨q, hq, rfl⟩)
  | cons item rest ih =>
    intro s hwf cur hcur hasc
    obtain ⟨hmem, hlt, hrest⟩ := hasc
    rcases hgc : s.getChild cur (some item) with _ | nid
    · rw [insertLoop_cons_none s cur item rest hgc]
      obtain ⟨hwf3, hrp3, hlen3, hitem3, hkeys3⟩ :=
        insertStep_spec s hwf cur item hcur hgc hmem hlt
      have hnidlt : s.nodes.length < (insertStep s cur item).nodes.length := by
        omega
      have hasc3 : ItemsAsc (insertStep s cur item)
          (((insertStep s cur item).node s.nodes.length).item) rest := by
        rw [hitem3]
        exact ItemsAsc_congr s _ hrp3 rest (some item) hrest
      obtain ⟨ha, hb, hc, hd, he⟩ := ih (insertStep s cur item) hwf3
        s.nodes.length hnidlt hasc3
      refine ⟨ha, by rw [hb, hrp3], by omega, hd, ?_⟩
      intro q hq
      rcases he q hq with h1 | h2
      · simp only [List.mem_map] at h1
        obtain ⟨p, hp, hq1⟩ := h1
        rcases hkeys3 p hp with hk1 | hk2
        · exact Or.inl (by rw [← hq1]; exact hk1)
        · right
          rw [← hq1, hk2]
          simp
      · right
        simp [h2]
    · rw [insertLoop_cons_some s cur item rest nid hgc]
      have hmemc : (some item, nid) ∈ (s.node cur).children :=
        lookup_mem _ _ _ hgc
      obtain ⟨x, hx1, hx2⟩ := hwf.1.childItem cur (some item) nid hmemc
      have hxi : item = x := by injection hx1
      subst hxi
      have hnidlen : nid < s.nodes.length := child_lt_length s hwf.1 hmemc
      have hasc2 : ItemsAsc s ((s.node nid).item) rest := by
        rw [hx2]
        exact hrest
      obtain ⟨ha, hb, hc, hd, he⟩ := ih s hwf nid hnidlen hasc2
      refine ⟨ha, hb, hc, hd, ?_⟩
      intro q hq
      rcases he q hq with h1 | h2
      · exact Or.inl h1
      · right
        simp [h2]

/-- Well-formedness only depends on the structural fields: two states
with the same RP-list, routes, arena size, and per-node item / children /
parent data are equally well-formed.  (Timestamp-only updates are the
common instance.) -/
theorem WfB_congr (s s2 : RPTreeSt)
    (hrp : s2.rpList = s.rpList)
    (hlen : s2.nodes.length = s.nodes.length)
    (hn : ∀ n, (s2.node n).item = (s.node n).item ∧
      (s2.node n).children = (s.node n).children ∧
      (s2.node n).parent = (s.node n).parent)
    (hwb : WfB s) : WfB s2 := by
  have hidx : ∀ a, idxI s2 a = idxI s a := idxI_congr s s2 hrp
  constructor
  · intro hh
    have h1 : s2.nodes.length = 0 := by rw [hh]; rfl
    have h2 := List.length_pos.2 hwb.nonnil
    omega
  · rw [(hn 0).1]
    exact hwb.rootItem
  · intro n pid hp
    rw [(hn n).2.2] at hp
    exact hwb.parLt n pid hp
  · intro n pid a b hp ha hb
    rw [(hn n).2.2] at hp
    rw [(hn n).1] at ha
    rw [(hn pid).1] at hb
    rw [hidx, hidx]
    exact hwb.parIdx n pid a b hp ha hb
  · intro n a ha
    rw [(hn n).1] at ha
    rw [hrp]
    exact hwb.itemMem n a ha
  · intro n k c hkc
    rw [(hn n).2.1] at hkc
    obtain ⟨x, hx1, hx2⟩ := hwb.childItem n k c hkc
    exact ⟨x, hx1, by rw [(hn c).1]; exact hx2⟩
  · intro n k c hkc
    rw [(hn n).2.1] at hkc
    exact hwb.childGt n k c hkc
  · intro n k c a x hkc ha hk
    rw [(hn n).2.1] at hkc
    rw [(hn n).1] at ha
    rw [hidx, hidx]
    exact hwb.childIdx n k c a x hkc ha hk

theorem Wf_congr (s s2 : RPTreeSt)
    (hrp : s2.rpList = s.rpList) (hro : s2.routes = s.routes)
    (hlen : s2.nodes.length = s.nodes.length)
    (hn : ∀ n, (s2.node n).item = (s.node n).item ∧
      (s2.node n).children = (s.node n).children ∧
      (s2.node n).parent = (s.node n).parent)
    (hwf : Wf s) : Wf s2 := by
  obtain ⟨hwb, hwr⟩ := hwf
  refine ⟨WfB_congr s s2 hrp hlen hn hwb, ?_⟩
  · intro p hp
    rw [hro] at hp
    have hrok := hwr p hp
    refine ⟨by rw [hrp]; exact hrok.mem, hrok.nonnil, hrok.nodup, ?_, ?_, ?_⟩
    · intro n hnn
      have := hrok.valid n hnn
      omega
    · intro n hnn
      rw [(hn n).1]
      exact hrok.label n hnn
    · intro n hnn
      obtain ⟨pid, h1, h2⟩ := hrok.coh n hnn
      exact ⟨pid, by rw [(hn n).2.2]; exact h1, by rw [(hn pid).2.1]; exact h2⟩

theorem setNode_ts_fields (s : RPTreeSt) (nid : Nat) (ts : List Nat)
    (h : nid < s.nodes.length) :
    ∀ n, ((s.setNode nid { s.node nid with timestamps := ts }).node n).item
        = (s.node n).item ∧
      ((s.setNode nid { s.node nid with timestamps := ts }).node n).children
        = (s.node n).children ∧
      ((s.setNode nid { s.node nid with timestamps := ts }).node n).parent
        = (s.node n).parent := by
  intro n
  by_cases hn : n = nid
  · subst hn
    rw [node_set_self s n _ h]
    exact ⟨rfl, rfl, rfl⟩
  · rw [node_set_other s nid n _ hn]
    exact ⟨rfl, rfl, rfl⟩

theorem setNode_ts_wf (s : RPTreeSt) (hwf : Wf s) (nid : Nat) (ts : List Nat)
    (h : nid < s.nodes.length) :
    Wf (s.setNode nid { s.node nid with timestamps := ts }) :=
  Wf_congr s _ (setNode_rpList s nid _) (setNode_routes s nid _)
    (setNode_length s nid _) (setNode_ts_fields s nid ts h) hwf

/-- `insert_node` preserves well-formedness when the item list is a valid
ascending insertion chain, and only adds routes for the inserted items. -/
theorem insertNode_spec (s : RPTreeSt) (hwf : Wf s) (items : List Item)
    (ts : Nat) (hasc : ItemsAsc s none items) :
    Wf (s.insertNode items ts) ∧
    (s.insertNode items ts).rpList = s.rpList ∧
    s.nodes.length ≤ (s.insertNode items ts).nodes.length ∧
    (∀ q ∈ (s.insertNode items ts).routes,
      q.1 ∈ s.routes.map Prod.fst ∨ q.1 ∈ items) := by
  have h0 : 0 < s.nodes.length := List.length_pos.2 hwf.1.nonnil
  have hasc0 : ItemsAsc s ((s.node 0).item) items := by
    rw [hwf.1.rootItem]
    exact hasc
  obtain ⟨ha, hb, hc, hd, he⟩ := insertLoop_spec items s hwf 0 h0 hasc0
  unfold RPTreeSt.insertNode
  refine ⟨setNode_ts_wf _ ha _ _ hd, ?_, ?_, ?_⟩
  · rw [setNode_rpList]
    exact hb
  · rw [setNode_length]
    exact hc
  · intro q hq
    rw [setNode_routes] at hq
    exact he q hq

/-! #### Ascending chains from a nodup RP-list -/

theorem nodup_pairwise_indexOf {L : List Item} (h : L.Nodup) :
    L.Pairwise (fun x y => L.indexOf x < L.indexOf y) := by
  induction L with
  | nil => simp
  | cons a L ih =>
    rw [List.nodup_cons] at h
    obtain ⟨ha, hnd⟩ := h
    rw [List.pairwise_cons]
    constructor
    · intro y hy
      have hya : y ≠ a := fun he => ha (he ▸ hy)
      rw [List.indexOf_cons_self, List.indexOf_cons_ne L (Ne.symm hya)]
      omega
    · have := ih hnd
      refine this.imp_of_mem ?_
      intro x y hx hy hxy
      have hxa : x ≠ a := fun he => ha (he ▸ hx)
      have hya : y ≠ a := fun he => ha (he ▸ hy)
      rw [List.indexOf_cons_ne L (Ne.symm hxa), List.indexOf_cons_ne L (Ne.symm hya)]
      omega

theorem itemsAsc_of_pairwise (s : RPTreeSt) :
    ∀ (l : List Item) (o : Option Item),
      l.Pairwise (fun x y => idxI s x < idxI s y) →
      (∀ x ∈ l, x ∈ s.rpList) →
      (∀ b, o = some b → ∀ x ∈ l, idxI s b < idxI s x) →
      ItemsAsc s o l := by
  intro l
  induction l with
  | nil => intro o _ _ _; trivial
  | cons x xs ih =>
    intro o hpw hmem ho
    rw [List.pairwise_cons] at hpw
    refine ⟨hmem x (by simp), fun b hb => ho b hb x (by simp), ?_⟩
    refine ih (some x) hpw.2 (fun y hy => hmem y (by simp [hy])) ?_
    intro b hb y hy
    injection hb with hb2
    subst hb2
    exact hpw.1 y hy

/-- The per-transaction item filter of the tree-building loop is a valid
insertion chain for any tree sharing the (nodup) RP-list. -/
theorem itemsAsc_filter (s : RPTreeSt) (hnd : s.rpList.Nodup)
    (p : Item → Bool) : ItemsAsc s none (s.rpList.filter p) := by
  refine itemsAsc_of_pairwise s _ none ?_ ?_ (by simp)
  · have h1 := nodup_pairwise_indexOf hnd
    have h2 : (s.rpList.filter p).Pairwise
        (fun x y => s.rpList.indexOf x < s.rpList.indexOf y) :=
      h1.sublist (List.filter_sublist _)
    exact h2.imp (fun h => h)
  · intro x hx
    exact List.mem_of_mem_filter hx

/-! #### Removal machinery -/

theorem nodeAdd_eq_none (s : RPTreeSt) (pid c : Nat)
    (h : s.getChild pid ((s.node c).item) = none) :
    s.nodeAdd pid c =
      (s.setNode pid
        { s.node pid with
            children := (s.node pid).children ++ [((s.node c).item, c)] }).setNode
        c { (s.setNode pid
          { s.node pid with
              children := (s.node pid).children ++ [((s.node c).item, c)] }).node c
            with parent := some pid } := by
  simp only [RPTreeSt.nodeAdd, h]

theorem nodeAdd_eq_some (s : RPTreeSt) (pid c exId : Nat)
    (h : s.getChild pid ((s.node c).item) = some exId) :
    s.nodeAdd pid c =
      s.setNode exId
        { s.node exId with
            timestamps := (s.node exId).timestamps ++
              ((s.node c).timestamps.dedup).filter
                (fun t => !((s.node pid).timestamps.contains t)) } := by
  simp only [RPTreeSt.nodeAdd, h]

theorem nodeAdd_spec (s : RPTreeSt) (hwb : WfB s) (pid c nidR : Nat)
    (a x : Item)
    (hR_item : (s.node nidR).item = some a)
    (hR_par : (s.node nidR).parent = some pid)
    (hR_mem : (some a, nidR) ∈ (s.node pid).children)
    (hc_mem : ∃ k, (k, c) ∈ (s.node nidR).children)
    (hcx : (s.node c).item = some x) :
    WfB (s.nodeAdd pid c) ∧
    (s.nodeAdd pid c).rpList = s.rpList ∧
    (s.nodeAdd pid c).routes = s.routes ∧
    (s.nodeAdd pid c).nodes.length = s.nodes.length ∧
    (∀ n, ((s.nodeAdd pid c).node n).item = (s.node n).item) ∧
    ((s.nodeAdd pid c).node nidR) = s.node nidR ∧
    (∃ extra, ((s.nodeAdd pid c).node pid).children =
      (s.node pid).children ++ extra) ∧
    (∀ n b, (s.node n).item = some b → CoherentAt s n b →
      CoherentAt (s.nodeAdd pid c) n b) := by
  obtain ⟨kc, hkc⟩ := hc_mem
  obtain ⟨x2, hx2a, hx2b⟩ := hwb.childItem nidR kc c hkc
  have hx2x : x = x2 := by
    rw [hcx] at hx2b
    exact Option.some.inj hx2b
  subst hx2x
  subst hx2a
  have hpid_lt : pid < nidR := hwb.parLt nidR pid hR_par
  have hnid_lt_c : nidR < c := hwb.childGt nidR (some x) c hkc
  have hnidR_len : nidR < s.nodes.length := item_lt_length s hR_item
  have hc_len : c < s.nodes.length := child_lt_length s hwb hkc
  have hax : idxI s a < idxI s x := hwb.childIdx nidR (some x) c a x hkc hR_item rfl
  have hc_ne_pid : c ≠ pid := by omega
  have hc_ne_nid : c ≠ nidR := by omega
  have hpid_ne_nid : pid ≠ nidR := by omega
  rcases hgc : s.getChild pid ((s.node c).item) with _ | exId
  · -- first branch: link c as a fresh child of pid
    rw [nodeAdd_eq_none s pid c hgc]
    rw [hcx] at hgc ⊢
    set d1 : RPNodeData :=
      { s.node pid with children := (s.node pid).children ++ [(some x, c)] }
      with hd1
    set sA := s.setNode pid d1 with hsA
    set d2 : RPNodeData := { sA.node c with parent := some pid } with hd2
    have hAc : sA.node c = s.node c := node_set_other s pid c d1 hc_ne_pid
    have h_pid : (sA.setNode c d2).node pid = d1 := by
      rw [node_set_other sA c pid d2 (Ne.symm hc_ne_pid), hsA,
        node_set_self s pid d1 (by omega)]
    have h_c : (sA.setNode c d2).node c = { s.node c with parent := some pid } := by
      rw [node_set_self sA c d2 (by rw [hsA, setNode_length]; omega), hd2, hAc]
    have h_other : ∀ n, n ≠ pid → n ≠ c → (sA.setNode c d2).node n = s.node n := by
      intro n h1 h2
      rw [node_set_other sA c n d2 h2, hsA, node_set_other s pid n d1 h1]
    have hitem_pres : ∀ n, ((sA.setNode c d2).node n).item = (s.node n).item := by
      intro n
      by_cases h1 : n = pid
      · rw [h1, h_pid, hd1]
      · by_cases h2 : n = c
        · rw [h2, h_c]
        · rw [h_other n h1 h2]
    have hpar_pres : ∀ n, n ≠ c →
        ((sA.setNode c d2).node n).parent = (s.node n).parent := by
      intro n h2
      by_cases h1 : n = pid
      · rw [h1, h_pid, hd1]
      · rw [h_other n h1 h2]
    have hchil_pres : ∀ n, n ≠ pid →
        ((sA.setNode c d2).node n).children = (s.node n).children := by
      intro n h1
      by_cases h2 : n = c
      · rw [h2, h_c]
      · rw [h_other n h1 h2]
    have hlen2 : (sA.setNode c d2).nodes.length = s.nodes.length := by
      rw [setNode_length, hsA, setNode_length]
    have hrp2 : (sA.setNode c d2).rpList = s.rpList := rfl
    have hro2 : (sA.setNode c d2).routes = s.routes := rfl
    have hidx2 : ∀ y, idxI (sA.setNode c d2) y = idxI s y :=
      idxI_congr s _ hrp2
    refine ⟨?_, hrp2, hro2, hlen2, hitem_pres, ?_, ⟨[(some x, c)], by rw [h_pid, hd1]⟩, ?_⟩
    · constructor
      · intro hh
        have h1 : (sA.setNode c d2).nodes.length = 0 := by rw [hh]; rfl
        have h2 := List.length_pos.2 hwb.nonnil
        omega
      · rw [hitem_pres 0]
        exact hwb.rootItem
      · intro n qid hp
        by_cases h2 : n = c
        · rw [h2, h_c] at hp
          simp only at hp
          have hp2 : qid = pid := (Option.some.inj hp).symm
          rw [h2, hp2]
          omega
        · rw [hpar_pres n h2] at hp
          exact hwb.parLt n qid hp
      · intro n qid y b hp hy hb
        rw [hidx2, hidx2]
        rw [hitem_pres n] at hy
        rw [hitem_pres qid] at hb
        by_cases h2 : n = c
        · rw [h2, h_c] at hp
          simp only at hp
          have hp2 : pid = qid := Option.some.inj hp
          rw [h2, hcx] at hy
          have hy2 : x = y := Option.some.inj hy
          rw [← hp2] at hb
          have hba : idxI s b < idxI s a :=
            hwb.childIdx pid (some a) nidR b a hR_mem hb rfl
          rw [← hy2]
          omega
        · rw [hpar_pres n h2] at hp
          exact hwb.parIdx n qid y b hp hy hb
      · intro n y hy
        rw [hitem_pres n] at hy
        rw [hrp2]
        exact hwb.itemMem n y hy
      · intro n k cc hkcc
        by_cases h1 : n = pid
        · rw [h1, h_pid, hd1] at hkcc
          simp only at hkcc
          rcases List.mem_append.1 hkcc with hold | hnew
          · obtain ⟨y, hy1, hy2⟩ := hwb.childItem pid k cc hold
            exact ⟨y, hy1, by rw [hitem_pres cc]; exact hy2⟩
          · simp at hnew
            obtain ⟨hk, hcc⟩ := hnew
            refine ⟨x, by rw [hk], ?_⟩
            rw [hitem_pres cc, hcc]
            exact hcx
        · rw [hchil_pres n h1] at hkcc
          obtain ⟨y, hy1, hy2⟩ := hwb.childItem n k cc hkcc
          exact ⟨y, hy1, by rw [hitem_pres cc]; exact hy2⟩
      · intro n k cc hkcc
        by_cases h1 : n = pid
        · rw [h1, h_pid, hd1] at hkcc
          simp only at hkcc
          rcases List.mem_append.1 hkcc with hold | hnew
          · rw [h1]
            exact hwb.childGt pid k cc hold
          · simp at hnew
            rw [h1]
            omega
        · rw [hchil_pres n h1] at hkcc
          exact hwb.childGt n k cc hkcc
      · intro n k cc y z hkcc hy hz
        rw [hidx2, hidx2]
        rw [hitem_pres n] at hy
        by_cases h1 : n = pid
        · rw [h1, h_pid, hd1] at hkcc
          simp only at hkcc
          rcases List.mem_append.1 hkcc with hold | hnew
          · rw [h1] at hy
            exact hwb.childIdx pid k cc y z hold hy hz
          · simp at hnew
            obtain ⟨hk, _⟩ := hnew
            rw [hk] at hz
            have hxz : x = z := Option.some.inj hz
            rw [h1] at hy
            have hba : idxI s y < idxI s a :=
              hwb.childIdx pid (some a) nidR y a hR_mem hy rfl
            rw [← hxz]
            omega
        · rw [hchil_pres n h1] at hkcc
          exact hwb.childIdx n k cc y z hkcc hy hz
    · -- nidR untouched
      rw [h_other nidR (Ne.symm hpid_ne_nid) (by omega)]
    · -- coherence transport
      intro n b hb hcoh
      by_cases h2 : n = c
      · rw [h2] at hb ⊢
        rw [hcx] at hb
        have hb2 : x = b := Option.some.inj hb
        refine ⟨pid, by rw [h_c], ?_⟩
        rw [h_pid, hd1]
        simp only
        have hgc2 : (s.node pid).children.lookup (some x) = none := hgc
        rw [lookup_append, ← hb2, hgc2]
        simp [List.lookup]
      · obtain ⟨qid, hq1, hq2⟩ := hcoh
        refine ⟨qid, by rw [hpar_pres n h2]; exact hq1, ?_⟩
        by_cases h1 : qid = pid
        · rw [h1, h_pid, hd1]
          simp only
          rw [lookup_append]
          rw [h1] at hq2
          rw [hq2]
        · rw [hchil_pres qid h1]
          exact hq2
  · -- merge branch: timestamps of the existing child only
    rw [nodeAdd_eq_some s pid c exId hgc]
    have hex_len : exId < s.nodes.length := by
      have hmem2 := lookup_mem _ _ _ hgc
      exact child_lt_length s hwb hmem2
    have hfields := setNode_ts_fields s exId
      ((s.node exId).timestamps ++
        ((s.node c).timestamps.dedup).filter
          (fun t => !((s.node pid).timestamps.contains t))) hex_len
    refine ⟨?_, rfl, rfl, setNode_length s exId _, fun n => (hfields n).1, ?_,
      ⟨[], by rw [(hfields pid).2.1, List.append_nil]⟩, ?_⟩
    · -- WfB via congruence
      exact WfB_congr s (s.setNode exId _) (setNode_rpList s exId _)
        (setNode_length s exId _) hfields hwb
    · -- nidR: equal fields but also timestamps unless nidR = exId
      have hne : nidR ≠ exId := by
        have hmem2 := lookup_mem _ _ _ hgc
        obtain ⟨y, hy1, hy2⟩ := hwb.childItem pid _ exId hmem2
        intro he
        rw [← he, hR_item] at hy2
        have hy3 : a = y := Option.some.inj hy2
        rw [hcx] at hy1
        have hy4 : x = y := Option.some.inj hy1
        rw [← hy3] at hy4
        rw [hy4] at hax
        omega
      rw [node_set_other s exId nidR _ hne]
    · intro n b hb hcoh
      obtain ⟨qid, hq1, hq2⟩ := hcoh
      exact ⟨qid, by rw [(hfields n).2.2]; exact hq1,
        by rw [(hfields qid).2.1]; exact hq2⟩

/-- The grandchild re-parenting fold of `RPNode.remove`. -/
theorem nodeAddFold_spec (pid nidR : Nat) (a : Item) :
    ∀ (entries : List (Option Item × Nat)) (s : RPTreeSt), WfB s →
      (s.node nidR).item = some a →
      (s.node nidR).parent = some pid →
      (some a, nidR) ∈ (s.node pid).children →
      (∀ e ∈ entries, e ∈ (s.node nidR).children) →
      WfB (entries.foldl (fun acc pc => acc.nodeAdd pid pc.2) s) ∧
      (entries.foldl (fun acc pc => acc.nodeAdd pid pc.2) s).rpList = s.rpList ∧
      (entries.foldl (fun acc pc => acc.nodeAdd pid pc.2) s).routes = s.routes ∧
      (entries.foldl (fun acc pc => acc.nodeAdd pid pc.2) s).nodes.length
        = s.nodes.length ∧
      (∀ n, ((entries.foldl (fun acc pc => acc.nodeAdd pid pc.2) s).node n).item
        = (s.node n).item) ∧
      ((entries.foldl (fun acc pc => acc.nodeAdd pid pc.2) s).node nidR)
        = s.node nidR ∧
      (∃ extra, ((entries.foldl (fun acc pc => acc.nodeAdd pid pc.2) s).node pid).children
        = (s.node pid).children ++ extra) ∧
      (∀ n b, (s.node n).item = some b → CoherentAt s n b →
        CoherentAt (entries.foldl (fun acc pc => acc.nodeAdd pid pc.2) s) n b) := by
  intro entries
  induction entries with
  | nil =>
    intro s hwb h1 h2 h3 _
    exact ⟨hwb, rfl, rfl, rfl, fun _ => rfl, rfl, ⟨[], by simp⟩, fun _ _ _ h => h⟩
  | cons e rest ih =>
    intro s hwb h1 h2 h3 hent
    have hec : e ∈ (s.node nidR).children := hent e (by simp)
    obtain ⟨x, hx1, hx2⟩ := hwb.childItem nidR e.1 e.2 (by
      have : (e.1, e.2) = e := rfl
      rw [this]
      exact hec)
    obtain ⟨ha1, ha2, ha3, ha4, ha5, ha6, ha7, ha8⟩ :=
      nodeAdd_spec s hwb pid e.2 nidR a x h1 h2 h3 ⟨e.1, by
        have : (e.1, e.2) = e := rfl
        rw [this]
        exact hec⟩ hx2
    simp only [List.foldl_cons]
    obtain ⟨hb1, hb2, hb3, hb4, hb5, hb6, hb7, hb8⟩ :=
      ih (s.nodeAdd pid e.2) ha1 (by rw [ha6]; exact h1) (by rw [ha6]; exact h2)
        (by
          obtain ⟨extra, hex⟩ := ha7
          rw [hex]
          exact List.mem_append_left _ h3)
        (by
          intro e2 he2
          rw [ha6]
          exact hent e2 (by simp [he2]))
    refine ⟨hb1, by rw [hb2, ha2], by rw [hb3, ha3], by rw [hb4, ha4],
      ?_, by rw [hb6, ha6], ?_, ?_⟩
    · intro n
      rw [hb5 n, ha5 n]
    · obtain ⟨ex1, hex1⟩ := ha7
      obtain ⟨ex2, hex2⟩ := hb7
      exact ⟨ex1 ++ ex2, by rw [hex2, hex1, List.append_assoc]⟩
    · intro n b hb hcoh
      exact hb8 n b (by rw [ha5 n]; exact hb) (ha8 n b hb hcoh)

theorem lookup_filter_ne (l : List (Option Item × Nat)) (k k2 : Option Item)
    (h : k2 ≠ k) :
    (l.filter (fun pc => pc.1 ≠ k)).lookup k2 = l.lookup k2 := by
  induction l with
  | nil => simp
  | cons p l ih =>
    by_cases hp : p.1 = k
    · have hfp : (decide (p.1 ≠ k)) = false := by simp [hp]
      rw [List.filter_cons]
      rw [hfp]
      simp only [List.lookup]
      have : (k2 == p.1) = false := by
        rw [hp]
        simp [h]
      rw [this]
      simp only [Bool.false_eq_true, if_false]
      exact ih
    · have hfp : (decide (p.1 ≠ k)) = true := by simp [hp]
      rw [List.filter_cons]
      rw [hfp]
      simp only [if_true, List.lookup]
      by_cases hk : (k2 == p.1) = true
      · rw [hk]
      · simp only [hk]
        exact ih

theorem nodeRemove_spec (s : RPTreeSt) (hwb : WfB s) (nid pid : Nat) (a : Item)
    (hitem : (s.node nid).item = some a)
    (hpar : (s.node nid).parent = some pid)
    (hlook : (s.node pid).children.lookup (some a) = some nid) :
    ∃ s3, s.nodeRemove pid nid = .ok s3 ∧ WfB s3 ∧ s3.rpList = s.rpList ∧
      s3.routes = s.routes ∧ s3.nodes.length = s.nodes.length ∧
      (∀ n, (s3.node n).item = (s.node n).item) ∧
      (∀ n b, n ≠ nid → (s.node n).item = some b → CoherentAt s n b →
        CoherentAt s3 n b) := by
  have hpidnid : pid < nid := hwb.parLt nid pid hpar
  have hnidlen : nid < s.nodes.length := item_lt_length s hitem
  have hnid0 : nid ≠ 0 := by
    intro hh
    rw [hh, hwb.rootItem] at hitem
    cases hitem
  set s1 := if (s.node nid).children.isEmpty then s
    else (s.node nid).children.foldl (fun acc pc => acc.nodeAdd pid pc.2) s
    with hs1
  have H1 : WfB s1 ∧ s1.rpList = s.rpList ∧ s1.routes = s.routes ∧
      s1.nodes.length = s.nodes.length ∧
      (∀ n, (s1.node n).item = (s.node n).item) ∧
      (s1.node nid = s.node nid) ∧
      (∃ extra, (s1.node pid).children = (s.node pid).children ++ extra) ∧
      (∀ n b, (s.node n).item = some b → CoherentAt s n b →
        CoherentAt s1 n b) := by
    rw [hs1]
    split
    · exact ⟨hwb, rfl, rfl, rfl, fun _ => rfl, rfl, ⟨[], by simp⟩,
        fun _ _ _ h => h⟩
    · exact nodeAddFold_spec pid nid a (s.node nid).children s hwb hitem hpar
        (lookup_mem _ _ _ hlook) (fun e he => he)
  obtain ⟨hw1, hrp1, hro1, hlen1, hit1, hnid1, ⟨extra, hext⟩, hcoh1⟩ := H1
  have hlook1 : (s1.node pid).children.lookup (some a) = some nid := by
    rw [hext, lookup_append, hlook]
  set dN : RPNodeData := { s1.node nid with parent := none } with hdN
  set s2 := s1.setNode nid dN with hs2
  set dP : RPNodeData := { s2.node pid with
    children := (s2.node pid).children.filter (fun pc => pc.1 ≠ some a) }
    with hdP
  have hgc2 : s.getChild pid (some a) = some nid := hlook
  have heq : s.nodeRemove pid nid = .ok (s2.setNode pid dP) := by
    rw [hdP, hs2, hdN, hs1]
    unfold RPTreeSt.nodeRemove
    simp only [hitem, hgc2, hpar]
    by_cases he : (s.node nid).children.isEmpty
    · rw [if_pos he, if_pos he]
      rfl
    · rw [if_neg he, if_neg he]
      rfl
  refine ⟨s2.setNode pid dP, heq, ?_⟩
  have hpid_lt1 : pid < s1.nodes.length := by omega
  have hnid_lt1 : nid < s1.nodes.length := by omega
  have hpid_lt2 : pid < s2.nodes.length := by
    rw [hs2, setNode_length]
    omega
  have hnidpid : nid ≠ pid := by omega
  have h2pid : s2.node pid = s1.node pid := by
    rw [hs2, node_set_other s1 nid pid dN (Ne.symm hnidpid)]
  have hD_nid : (s2.setNode pid dP).node nid = dN := by
    rw [node_set_other s2 pid nid dP hnidpid, hs2,
      node_set_self s1 nid dN hnid_lt1]
  have hD_pid : (s2.setNode pid dP).node pid =
      { s1.node pid with
        children := (s1.node pid).children.filter (fun pc => pc.1 ≠ some a) } := by
    rw [node_set_self s2 pid dP hpid_lt2, hdP, h2pid]
  have hD_other : ∀ n, n ≠ nid → n ≠ pid →
      (s2.setNode pid dP).node n = s1.node n := by
    intro n h1 h2
    rw [node_set_other s2 pid n dP h2, hs2, node_set_other s1 nid n dN h1]
  have hI_pres : ∀ n, ((s2.setNode pid dP).node n).item = (s1.node n).item := by
    intro n
    by_cases h1 : n = nid
    · rw [h1, hD_nid, hdN]
    · by_cases h2 : n = pid
      · rw [h2, hD_pid]
      · rw [hD_other n h1 h2]
  have hP_pres : ∀ n, n ≠ nid →
      ((s2.setNode pid dP).node n).parent = (s1.node n).parent := by
    intro n h1
    by_cases h2 : n = pid
    · rw [h2, hD_pid]
    · rw [hD_other n h1 h2]
  have hC_pres : ∀ n, n ≠ pid →
      ((s2.setNode pid dP).node n).children = (s1.node n).children := by
    intro n h2
    by_cases h1 : n = nid
    · rw [h1, hD_nid, hdN]
    · rw [hD_other n h1 h2]
  have hC_sub : ∀ n k c, (k, c) ∈ ((s2.setNode pid dP).node n).children →
      (k, c) ∈ (s1.node n).children := by
    intro n k c hkc
    by_cases h2 : n = pid
    · rw [h2, hD_pid] at hkc
      simp only at hkc
      rw [h2]
      exact List.mem_of_mem_filter hkc
    · rw [hC_pres n h2] at hkc
      exact hkc
  have hlen3 : (s2.setNode pid dP).nodes.length = s.nodes.length := by
    rw [setNode_length, hs2, setNode_length]
    omega
  have hrp3 : (s2.setNode pid dP).rpList = s.rpList := by
    rw [setNode_rpList, hs2, setNode_rpList]
    exact hrp1
  have hro3 : (s2.setNode pid dP).routes = s.routes := by
    rw [setNode_routes, hs2, setNode_routes]
    exact hro1
  have hidx3 : ∀ y, idxI (s2.setNode pid dP) y = idxI s1 y := by
    intro y
    rw [idxI_congr s _ hrp3, idxI_congr s s1 hrp1]
  refine ⟨?_, hrp3, hro3, hlen3, ?_, ?_⟩
  · -- WfB
    constructor
    · intro hh
      have h1 : (s2.setNode pid dP).nodes.length = 0 := by rw [hh]; rfl
      have h2 := List.length_pos.2 hwb.nonnil
      omega
    · rw [hI_pres 0, hit1 0]
      exact hwb.rootItem
    · intro n qid hp
      by_cases h1 : n = nid
      · rw [h1, hD_nid, hdN] at hp
        cases hp
      · rw [hP_pres n h1] at hp
        exact hw1.parLt n qid hp
    · intro n qid y b hp hy hb
      rw [hidx3, hidx3]
      by_cases h1 : n = nid
      · rw [h1, hD_nid, hdN] at hp
        cases hp
      · rw [hP_pres n h1] at hp
        rw [hI_pres n] at hy
        rw [hI_pres qid] at hb
        exact hw1.parIdx n qid y b hp hy hb
    · intro n y hy
      rw [hI_pres n] at hy
      rw [hrp3, ← hrp1]
      exact hw1.itemMem n y hy
    · intro n k c hkc
      have h2 := hC_sub n k c hkc
      obtain ⟨x, hx1, hx2⟩ := hw1.childItem n k c h2
      exact ⟨x, hx1, by rw [hI_pres c]; exact hx2⟩
    · intro n k c hkc
      exact hw1.childGt n k c (hC_sub n k c hkc)
    · intro n k c y x hkc hy hx
      rw [hidx3, hidx3]
      rw [hI_pres n] at hy
      exact hw1.childIdx n k c y x (hC_sub n k c hkc) hy hx
  · intro n
    rw [hI_pres n, hit1 n]
  · -- coherence transport
    intro n b hnnid hb hcoh
    have hc1 := hcoh1 n b hb hcoh
    obtain ⟨qid, hq1, hq2⟩ := hc1
    refine ⟨qid, by rw [hP_pres n hnnid]; exact hq1, ?_⟩
    by_cases hqp : qid = pid
    · subst hqp
      rw [hD_pid]
      simp only
      have hba : b ≠ a := by
        intro hh
        subst hh
        rw [hq2] at hlook1
        exact hnnid (Option.some.inj hlook1)
      rw [lookup_filter_ne _ (some a) (some b) (by simp [hba])]
      exact hq2
    · rw [hC_pres qid hqp]
      exact hq2


/-- Coherence only depends on the children and parent fields. -/
theorem CoherentAt_congr (s s2 : RPTreeSt)
    (hn : ∀ n, (s2.node n).children = (s.node n).children ∧
      (s2.node n).parent = (s.node n).parent)
    (n : Nat) (b : Item) (h : CoherentAt s n b) : CoherentAt s2 n b := by
  obtain ⟨pid, h1, h2⟩ := h
  exact ⟨pid, by rw [(hn n).2]; exact h1, by rw [(hn pid).1]; exact h2⟩

/-- The loop of `remove_nodes` succeeds on a duplicate-free list of
coherent nodes all labeled `a`, preserving the arena size, the RP-list,
the routes, every node's item, and the coherence of every node outside
the list. -/
theorem removeNodesLoop_spec (a : Item) (nids : List Nat) :
    ∀ (s : RPTreeSt), WfB s →
    (∀ n ∈ nids, (s.node n).item = some a) →
    (∀ n ∈ nids, CoherentAt s n a) →
    nids.Nodup →
    ∃ s3, removeNodesLoop s nids = .ok s3 ∧ WfB s3 ∧
      s3.rpList = s.rpList ∧ s3.routes = s.routes ∧
      s3.nodes.length = s.nodes.length ∧
      (∀ n, (s3.node n).item = (s.node n).item) ∧
      (∀ n b, n ∉ nids → (s.node n).item = some b → CoherentAt s n b →
        CoherentAt s3 n b) := by
  induction nids with
  | nil =>
    intro s hwb _ _ _
    exact ⟨s, rfl, hwb, rfl, rfl, rfl, fun _ => rfl, fun _ _ _ _ h => h⟩
  | cons nid rest ih =>
    intro s hwb hl hc hnd
    have hla : (s.node nid).item = some a := hl nid (by simp)
    obtain ⟨pid, hpar, hlook⟩ := hc nid (by simp)
    have hnidlen : nid < s.nodes.length := item_lt_length s hla
    have hpidnid : pid < nid := hwb.parLt nid pid hpar
    have hpidlen : pid < s.nodes.length := by omega
    set s1 := if (s.node pid).item = none then s
      else s.setNode pid
        { s.node pid with
            timestamps := (s.node pid).timestamps ++ (s.node nid).timestamps }
      with hs1
    have hS1 : WfB s1 ∧ s1.rpList = s.rpList ∧ s1.routes = s.routes ∧
        s1.nodes.length = s.nodes.length ∧
        (∀ n, (s1.node n).item = (s.node n).item ∧
          (s1.node n).children = (s.node n).children ∧
          (s1.node n).parent = (s.node n).parent) := by
      rw [hs1]
      split
      · exact ⟨hwb, rfl, rfl, rfl, fun _ => ⟨rfl, rfl, rfl⟩⟩
      · have hf := setNode_ts_fields s pid
          ((s.node pid).timestamps ++ (s.node nid).timestamps) hpidlen
        exact ⟨WfB_congr s _ (setNode_rpList s pid _) (setNode_length s pid _)
            hf hwb,
          setNode_rpList s pid _, setNode_routes s pid _,
          setNode_length s pid _, hf⟩
    obtain ⟨hw1, hrp1, hro1, hlen1, hfields1⟩ := hS1
    have hitem1 : (s1.node nid).item = some a := by
      rw [(hfields1 nid).1]
      exact hla
    have hpar1 : (s1.node nid).parent = some pid := by
      rw [(hfields1 nid).2.2]
      exact hpar
    have hlook1 : (s1.node pid).children.lookup (some a) = some nid := by
      rw [(hfields1 pid).2.1]
      exact hlook
    obtain ⟨s2, heq2, hw2, hrp2, hro2, hlen2, hit2, hcoh2⟩ :=
      nodeRemove_spec s1 hw1 nid pid a hitem1 hpar1 hlook1
    have hndrest : rest.Nodup := (List.nodup_cons.1 hnd).2
    have hnidrest : nid ∉ rest := (List.nodup_cons.1 hnd).1
    have hl2 : ∀ n ∈ rest, (s2.node n).item = some a := by
      intro n hn
      rw [hit2 n, (hfields1 n).1]
      exact hl n (by simp [hn])
    have hc2 : ∀ n ∈ rest, CoherentAt s2 n a := by
      intro n hn
      have hnne : n ≠ nid := fun hh => hnidrest (hh ▸ hn)
      refine hcoh2 n a hnne ?_ ?_
      · rw [(hfields1 n).1]
        exact hl n (by simp [hn])
      · exact CoherentAt_congr s s1
          (fun m => ⟨(hfields1 m).2.1, (hfields1 m).2.2⟩) n a
          (hc n (by simp [hn]))
    obtain ⟨s3, heq3, hw3, hrp3, hro3, hlen3, hit3, hcoh3⟩ :=
      ih s2 hw2 hl2 hc2 hndrest
    refine ⟨s3, ?_, hw3, by rw [hrp3, hrp2, hrp1], by rw [hro3, hro2, hro1],
      by rw [hlen3, hlen2, hlen1],
      fun n => by rw [hit3 n, hit2 n, (hfields1 n).1], ?_⟩
    · show removeNodesLoop s (nid :: rest) = .ok s3
      simp only [removeNodesLoop, hpar]
      rw [← hs1, heq2]
      exact heq3
    · intro n b hnin hb hcb
      have hnne : n ≠ nid := fun hh => hnin (by simp [hh])
      have hnrest : n ∉ rest := fun hh => hnin (by simp [hh])
      refine hcoh3 n b hnrest ?_ ?_
      · rw [hit2 n, (hfields1 n).1]
        exact hb
      · refine hcoh2 n b hnne ?_ ?_
        · rw [(hfields1 n).1]
          exact hb
        · exact CoherentAt_congr s s1
            (fun m => ⟨(hfields1 m).2.1, (hfields1 m).2.2⟩) n b hcb


/-- `remove_nodes(a)` on a well-formed tree whose routes contain `a`:
succeeds, removes exactly the `a` route, and preserves well-formedness,
the RP-list, the arena size and every node's item. -/
theorem removeNodes_spec (s : RPTreeSt) (hwf : Wf s) (a : Item)
    (l : List Nat) (hl : s.routes.lookup a = some l) :
    ∃ s4, s.removeNodes a = .ok s4 ∧ Wf s4 ∧
      s4.rpList = s.rpList ∧
      s4.routes = s.routes.filter (fun p => p.1 ≠ a) ∧
      s4.nodes.length = s.nodes.length ∧
      (∀ n, (s4.node n).item = (s.node n).item) := by
  have hmem : (a, l) ∈ s.routes := lookup_mem s.routes a l hl
  have hroute : RouteOk s (a, l) := hwf.2 (a, l) hmem
  obtain ⟨s3, heqL, hw3, hrp3, hro3, hlen3, hit3, hcoh3⟩ :=
    removeNodesLoop_spec a l s hwf.1 hroute.label hroute.coh hroute.nodup
  have hno : s.nodesOf a = .ok l := by
    unfold RPTreeSt.nodesOf
    rw [hl]
  have hstep : s.removeNodes a = Except.bind (Except.ok l) (fun nids =>
      Except.bind (removeNodesLoop s nids) (fun s1 =>
        Except.ok { s1 with
          routes := List.filter (fun p => p.1 ≠ a) s1.routes })) := by
    unfold RPTreeSt.removeNodes
    rw [hno]
    rfl
  have hcomp : s.removeNodes a = .ok { s3 with
      routes := List.filter (fun p => p.1 ≠ a) s3.routes } := by
    rw [hstep]
    show Except.bind (removeNodesLoop s l) _ = _
    rw [heqL]
    rfl
  refine ⟨_, hcomp, ?_, hrp3, by rw [hro3], hlen3, hit3⟩
  constructor
  · exact WfB_congr s3 _ rfl rfl (fun _ => ⟨rfl, rfl, rfl⟩) hw3
  · intro p hp
    have hp2 : p ∈ s.routes ∧ p.1 ≠ a := by
      have : p ∈ List.filter (fun p => p.1 ≠ a) s.routes := by
        rw [← hro3]
        exact hp
      constructor
      · exact List.mem_of_mem_filter this
      · have := List.of_mem_filter this
        simpa using this
    obtain ⟨hpo, hpne⟩ := hp2
    have hrop : RouteOk s p := hwf.2 p hpo
    have hnl : ∀ n ∈ p.2, n ∉ l := by
      intro n hn hnl
      have h1 := hrop.label n hn
      have h2 := hroute.label n hnl
      rw [h1] at h2
      exact hpne (Option.some.inj h2)
    refine ⟨by rw [hrp3]; exact hrop.mem, hrop.nonnil, hrop.nodup, ?_, ?_, ?_⟩
    · intro n hn
      have hv : n < s.nodes.length := hrop.valid n hn
      show n < s3.nodes.length
      omega
    · intro n hn
      show (s3.node n).item = some p.1
      rw [hit3 n]
      exact hrop.label n hn
    · intro n hn
      show CoherentAt s3 n p.1
      exact hcoh3 n p.1 (hnl n hn) (hrop.label n hn) (hrop.coh n hn)


/-! #### Prefix-tree machinery -/

theorem mkEmpty_node (L : List Item) (n : Nat) :
    (RPTreeSt.mkEmpty L).node n = defaultNodeData := by
  cases n with
  | zero => rfl
  | succ m => simp [RPTreeSt.mkEmpty, RPTreeSt.node]

/-- A fresh tree is well-formed. -/
theorem Wf_mkEmpty (L : List Item) : Wf (RPTreeSt.mkEmpty L) := by
  refine ⟨⟨?_, ?_, ?_, ?_, ?_, ?_, ?_, ?_⟩, ?_⟩
  · intro h
    simp [RPTreeSt.mkEmpty] at h
  · rw [mkEmpty_node]
    rfl
  · intro n pid hp
    rw [mkEmpty_node] at hp
    cases hp
  · intro n pid a b hp _ _
    rw [mkEmpty_node] at hp
    cases hp
  · intro n a hp
    rw [mkEmpty_node] at hp
    cases hp
  · intro n k c hp
    rw [mkEmpty_node] at hp
    cases hp
  · intro n k c hp
    rw [mkEmpty_node] at hp
    cases hp
  · intro n k c a x hp _ _
    rw [mkEmpty_node] at hp
    cases hp
  · intro p hp
    cases hp

/-- `lookup` commutes with deleting the entries of a different key. -/
theorem lookup_filter_ne_keys {α β : Type} [BEq α] [LawfulBEq α]
    [DecidableEq α] (l : List (α × β)) (k k2 : α) (h : k2 ≠ k) :
    (l.filter (fun pc => pc.1 ≠ k)).lookup k2 = l.lookup k2 := by
  induction l with
  | nil => simp
  | cons p l ih =>
    by_cases hp : p.1 = k
    · have hfp : (decide (p.1 ≠ k)) = false := by simp [hp]
      rw [List.filter_cons, hfp]
      simp only [Bool.false_eq_true, if_false, List.lookup]
      have hne : (k2 == p.1) = false := by
        rw [hp]
        simp [h]
      rw [hne]
      simp only [Bool.false_eq_true, if_false]
      exact ih
    · have hfp : (decide (p.1 ≠ k)) = true := by simp [hp]
      rw [List.filter_cons, hfp]
      simp only [if_true, List.lookup]
      by_cases hk : (k2 == p.1) = true
      · rw [hk]
      · simp only [hk]
        exact ih

/-- Updating one key of an association list by mapping preserves the key
set. -/
theorem lookup_map_upd_isSome (tp : List (Item × List Nat)) (it : Item)
    (f : Item × List Nat → List Nat) (x : Item) :
    ((tp.map (fun p => if p.1 = it then (p.1, f p) else p)).lookup x).isSome
      = (tp.lookup x).isSome := by
  induction tp with
  | nil => rfl
  | cons p tp ih =>
    rw [List.map_cons]
    by_cases hp : p.1 = it
    · rw [if_pos hp]
      simp only [List.lookup]
      by_cases hxp : (x == p.1) = true
      · rw [hxp]
        rfl
      · simp only [hxp, Bool.false_eq_true, if_false]
        exact ih
    · rw [if_neg hp]
      simp only [List.lookup]
      by_cases hxp : (x == p.1) = true
      · rw [hxp]
      · simp only [hxp, Bool.false_eq_true, if_false]
        exact ih

/-- `tempAdd` keeps every existing key. -/
theorem tempAdd_isSome_pres (tp : List (Item × List Nat)) (it : Item)
    (ts : List Nat) (x : Item) (h : (tp.lookup x).isSome) :
    ((tempAdd tp it ts).lookup x).isSome := by
  unfold tempAdd
  rcases hl : tp.lookup it with _ | v
  · simp only [hl]
    rw [lookup_append]
    rcases hx : tp.lookup x with _ | w
    · rw [hx] at h
      cases h
    · simp
  · simp only [hl]
    rw [lookup_map_upd_isSome]
    exact h

/-- `tempAdd` makes its own key present. -/
theorem tempAdd_self_isSome (tp : List (Item × List Nat)) (it : Item)
    (ts : List Nat) : ((tempAdd tp it ts).lookup it).isSome := by
  unfold tempAdd
  rcases hl : tp.lookup it with _ | v
  · simp only [hl]
    rw [lookup_append, hl]
    simp [List.lookup]
  · simp only [hl]
    rw [lookup_map_upd_isSome, hl]
    rfl


/-- The per-path `temp_transactions` fold keeps every existing key. -/
theorem foldl_tempAdd_pres (s : RPTreeSt) (ts : List Nat) :
    ∀ (ids : List Nat) (tp : List (Item × List Nat)) (x : Item),
      (tp.lookup x).isSome →
      ((ids.foldl (fun tp i => tempAdd tp ((s.node i).item.getD 0) ts)
        tp).lookup x).isSome := by
  intro ids
  induction ids with
  | nil => intro tp x h; exact h
  | cons j rest ih =>
    intro tp x h
    rw [List.foldl_cons]
    exact ih _ x (tempAdd_isSome_pres tp _ ts x h)

/-- After the fold, every visited node's item is a key. -/
theorem foldl_tempAdd_mem (s : RPTreeSt) (ts : List Nat) :
    ∀ (ids : List Nat) (tp : List (Item × List Nat)) (i : Nat), i ∈ ids →
      ((ids.foldl (fun tp i => tempAdd tp ((s.node i).item.getD 0) ts)
        tp).lookup ((s.node i).item.getD 0)).isSome := by
  intro ids
  induction ids with
  | nil => intro tp i h; cases h
  | cons j rest ih =>
    intro tp i h
    rw [List.foldl_cons]
    rcases List.mem_cons.1 h with rfl | h2
    · exact foldl_tempAdd_pres s ts rest _ _ (tempAdd_self_isSome tp _ ts)
    · exact ih _ i h2

/-- `walk_path` preserves prefix-tree well-formedness and the shared
RP-list, only grows the temp map (adding the walked item's key), and
every route key it introduces is an RP-list item strictly below the
walked item that is also a temp key. -/
theorem walkPath_spec (s : RPTreeSt) (hwb : WfB s) (a : Item) (nid : Nat)
    (hitem : (s.node nid).item = some a) (hnid : nid < s.nodes.length)
    (temp : List (Item × List Nat)) (pt : RPTreeSt) (hwf : Wf pt)
    (hrp : pt.rpList = s.rpList) :
    Wf (walkPath s nid (temp, pt)).2 ∧
    (walkPath s nid (temp, pt)).2.rpList = s.rpList ∧
    (∀ x, (temp.lookup x).isSome →
      (((walkPath s nid (temp, pt)).1).lookup x).isSome) ∧
    (((walkPath s nid (temp, pt)).1).lookup a).isSome ∧
    (∀ q ∈ (walkPath s nid (temp, pt)).2.routes,
      q.1 ∈ pt.routes.map Prod.fst ∨
      (q.1 ∈ s.rpList ∧ idxI s q.1 < idxI s a ∧
        (((walkPath s nid (temp, pt)).1).lookup q.1).isSome)) := by
  obtain ⟨rest, hwu, hdesc⟩ := walkUp_spec s hwb s.nodes.length nid a hnid hitem
  have hkey : ((s.node nid).item.getD 0) = a := by rw [hitem]; rfl
  have hcomp : walkPath s nid (temp, pt) =
      (((nid :: rest).foldl
          (fun tp i => tempAdd tp ((s.node i).item.getD 0)
            (s.node nid).timestamps) temp),
        (let ancestors := rest.reverse.map (fun i => (s.node i).item.getD 0)
         let r := insertLoop pt 0 ancestors
         r.1.setNode r.2
          { r.1.node r.2 with
              timestamps := (r.1.node r.2).timestamps ++
                (s.node nid).timestamps })) := by
    simp only [walkPath, hwu]
  obtain ⟨ihasc, ihlt⟩ := ItemsDesc_reverse_asc s rest a hdesc
  have hasc : ItemsAsc pt ((pt.node 0).item)
      (rest.reverse.map (fun i => (s.node i).item.getD 0)) := by
    rw [hwf.1.rootItem]
    exact ItemsAsc_congr s pt hrp _ none ihasc
  have h0 : 0 < pt.nodes.length := List.length_pos.2 hwf.1.nonnil
  obtain ⟨hwr, hrpr, hlenr, hvalr, hkeysr⟩ :=
    insertLoop_spec (rest.reverse.map (fun i => (s.node i).item.getD 0))
      pt hwf 0 h0 hasc
  rw [hcomp]
  simp only
  refine ⟨?_, ?_, ?_, ?_, ?_⟩
  · exact setNode_ts_wf _ hwr _ _ hvalr
  · rw [setNode_rpList, hrpr, hrp]
  · intro x hx
    exact foldl_tempAdd_pres s _ _ temp x hx
  · rw [← hkey]
    exact foldl_tempAdd_mem s _ (nid :: rest) temp nid (by simp)
  · intro q hq
    rw [setNode_routes] at hq
    rcases hkeysr q hq with h1 | h2
    · exact Or.inl h1
    · right
      rw [List.mem_map] at h2
      obtain ⟨j, hj, hjq⟩ := h2
      rw [List.mem_reverse] at hj
      obtain ⟨b, hb1, hb2, hb3⟩ := ItemsDesc_lt s rest a hdesc j hj
      have hqb : q.1 = b := by rw [← hjq, hb1]; rfl
      refine ⟨by rw [hqb]; exact hb2, by rw [hqb]; exact hb3, ?_⟩
      rw [← hjq]
      exact foldl_tempAdd_mem s _ (nid :: rest) temp j (by simp [hj])


/-- Folding `walk_path` over a list of occurrence nodes of item `a`
keeps prefix-tree well-formedness, the shared RP-list and the route-key
invariant, and records `a` as a temp key as soon as one node is
walked. -/
theorem walkPathFold_spec (s : RPTreeSt) (hwb : WfB s) (a : Item) :
    ∀ (nids : List Nat),
      (∀ n ∈ nids, (s.node n).item = some a) →
      (∀ n ∈ nids, n < s.nodes.length) →
      ∀ (temp : List (Item × List Nat)) (pt : RPTreeSt), Wf pt →
      pt.rpList = s.rpList →
      (∀ q ∈ pt.routes, q.1 ∈ s.rpList ∧ idxI s q.1 < idxI s a ∧
        (temp.lookup q.1).isSome) →
      Wf (nids.foldl (fun acc nid => walkPath s nid acc) (temp, pt)).2 ∧
      (nids.foldl (fun acc nid => walkPath s nid acc) (temp, pt)).2.rpList
        = s.rpList ∧
      (∀ x, (temp.lookup x).isSome →
        ((nids.foldl (fun acc nid => walkPath s nid acc)
          (temp, pt)).1.lookup x).isSome) ∧
      (nids ≠ [] →
        ((nids.foldl (fun acc nid => walkPath s nid acc)
          (temp, pt)).1.lookup a).isSome) ∧
      (∀ q ∈ (nids.foldl (fun acc nid => walkPath s nid acc)
          (temp, pt)).2.routes,
        q.1 ∈ s.rpList ∧ idxI s q.1 < idxI s a ∧
        ((nids.foldl (fun acc nid => walkPath s nid acc)
          (temp, pt)).1.lookup q.1).isSome) := by
  intro nids
  induction nids with
  | nil =>
    intro _ _ temp pt hwf hrp hroutes
    exact ⟨hwf, hrp, fun x h => h, fun h => absurd rfl h, hroutes⟩
  | cons nid nids ih =>
    intro hlab hval temp pt hwf hrp hroutes
    have hitem : (s.node nid).item = some a := hlab nid (by simp)
    have hnid : nid < s.nodes.length := hval nid (by simp)
    obtain ⟨hw1, hrp1, hpres1, hself1, hroutes1⟩ :=
      walkPath_spec s hwb a nid hitem hnid temp pt hwf hrp
    have hroutes1b : ∀ q ∈ (walkPath s nid (temp, pt)).2.routes,
        q.1 ∈ s.rpList ∧ idxI s q.1 < idxI s a ∧
        ((walkPath s nid (temp, pt)).1.lookup q.1).isSome := by
      intro q hq
      rcases hroutes1 q hq with h1 | h2
      · rw [List.mem_map] at h1
        obtain ⟨p, hp, hpq⟩ := h1
        obtain ⟨hm, hlt, hk⟩ := hroutes p hp
        rw [← hpq]
        exact ⟨hm, hlt, hpres1 p.1 hk⟩
      · exact h2
    obtain ⟨ha2, hb2, hc2, hd2, he2⟩ := ih (fun n hn => hlab n (by simp [hn]))
      (fun n hn => hval n (by simp [hn]))
      (walkPath s nid (temp, pt)).1 (walkPath s nid (temp, pt)).2
      hw1 hrp1 hroutes1b
    rw [List.foldl_cons]
    refine ⟨ha2, hb2, fun x hx => hc2 x (hpres1 x hx), fun _ => ?_, he2⟩
    rcases hn : nids with _ | ⟨m, ms⟩
    · rw [hn] at hc2
      exact hc2 a hself1
    · rw [← hn]
      exact hd2 (by rw [hn]; intro hh; cases hh)

/-- `prefix_tree(a)` on a well-formed tree with a route for `a`:
succeeds, and the produced prefix tree is well-formed, shares the
RP-list, and every one of its route keys is an RP-list item strictly
below `a` that is a key of the returned temp map, which also has `a` as
a key. -/
theorem prefixTree_spec (s : RPTreeSt) (hwf : Wf s) (a : Item)
    (l : List Nat) (hl : s.routes.lookup a = some l) :
    ∃ temp pt, s.prefixTree a = .ok (temp, pt) ∧ Wf pt ∧
      pt.rpList = s.rpList ∧ (temp.lookup a).isSome ∧
      (∀ q ∈ pt.routes, q.1 ∈ s.rpList ∧ idxI s q.1 < idxI s a ∧
        (temp.lookup q.1).isSome) := by
  have hmem : (a, l) ∈ s.routes := lookup_mem s.routes a l hl
  have hroute : RouteOk s (a, l) := hwf.2 (a, l) hmem
  have hno : s.nodesOf a = .ok l := by
    unfold RPTreeSt.nodesOf
    rw [hl]
  obtain ⟨ha2, hb2, hc2, hd2, he2⟩ := walkPathFold_spec s hwf.1 a l
    hroute.label hroute.valid [] (RPTreeSt.mkEmpty s.rpList)
    (Wf_mkEmpty s.rpList) rfl (by intro q hq; cases hq)
  refine ⟨(l.foldl (fun acc nid => walkPath s nid acc)
      ([], RPTreeSt.mkEmpty s.rpList)).1,
    (l.foldl (fun acc nid => walkPath s nid acc)
      ([], RPTreeSt.mkEmpty s.rpList)).2, ?_, ha2, hb2,
    hd2 hroute.nonnil, he2⟩
  unfold RPTreeSt.prefixTree
  rw [hno]
  rfl


/-- The conditional-tree filter loop succeeds whenever every route key of
the tree is a temp key; the result is well-formed with the same RP-list
and its routes are a subset of the input routes. -/
theorem condFilterLoop_spec (per min_ps min_rec : Nat)
    (temp : List (Item × List Nat)) :
    ∀ (items : List Item) (t : RPTreeSt), Wf t →
      (∀ q ∈ t.routes, (temp.lookup q.1).isSome) →
      ∃ t2, condFilterLoop per min_ps min_rec temp t items = .ok t2 ∧ Wf t2 ∧
        t2.rpList = t.rpList ∧ (∀ q ∈ t2.routes, q ∈ t.routes) := by
  intro items
  induction items with
  | nil =>
    intro t hwf hkeys
    exact ⟨t, rfl, hwf, rfl, fun q hq => hq⟩
  | cons item rest ih =>
    intro t hwf hkeys
    rcases hA : t.routes.lookup item with _ | l
    · have hstep : condFilterLoop per min_ps min_rec temp t (item :: rest) =
          condFilterLoop per min_ps min_rec temp t rest := by
        simp only [condFilterLoop, hA]
        rfl
      obtain ⟨t2, he, hw, hrp, hsub⟩ := ih t hwf hkeys
      exact ⟨t2, by rw [hstep]; exact he, hw, hrp, hsub⟩
    · have hmem : (item, l) ∈ t.routes := lookup_mem _ _ _ hA
      have htk : (temp.lookup item).isSome := hkeys (item, l) hmem
      rcases htg : temp.lookup item with _ | ts
      · rw [htg] at htk
        cases htk
      · have htg2 : tempGet temp item = .ok ts := by
          unfold tempGet
          rw [htg]
        have hstep : condFilterLoop per min_ps min_rec temp t (item :: rest) =
            (if getRecurrence per min_ps min_rec (sortNat ts) then
              condFilterLoop per min_ps min_rec temp t rest
            else
              Except.bind (t.removeNodes item)
                (fun s1 => condFilterLoop per min_ps min_rec temp s1 rest)) := by
          simp only [condFilterLoop, hA, htg2]
          rfl
        rcases hrec : getRecurrence per min_ps min_rec (sortNat ts)
        · obtain ⟨t1, hre, hw1, hrp1, hro1, _, _⟩ :=
            removeNodes_spec t hwf item l hA
          have hk1 : ∀ q ∈ t1.routes, (temp.lookup q.1).isSome := by
            intro q hq
            rw [hro1] at hq
            exact hkeys q (List.mem_of_mem_filter hq)
          obtain ⟨t2, he, hw, hrp2, hsub⟩ := ih t1 hw1 hk1
          refine ⟨t2, ?_, hw, by rw [hrp2, hrp1], ?_⟩
          · rw [hstep, if_neg (by simp [hrec]), hre]
            exact he
          · intro q hq
            have h2 := hsub q hq
            rw [hro1] at h2
            exact List.mem_of_mem_filter h2
        · obtain ⟨t2, he, hw, hrp2, hsub⟩ := ih t hwf hkeys
          exact ⟨t2, by rw [hstep, if_pos (by rw [hrec])]; exact he, hw,
            hrp2, hsub⟩


/-! #### The final RP-list is duplicate-free and the built tree is
well-formed -/

theorem map_fst_map_upd (rp : List (Item × RPItemEntry)) (it : Item)
    (f : Item × RPItemEntry → RPItemEntry) :
    (rp.map (fun p => if p.1 = it then (p.1, f p) else p)).map Prod.fst
      = rp.map Prod.fst := by
  induction rp with
  | nil => rfl
  | cons p rp ih =>
    rw [List.map_cons, List.map_cons, List.map_cons, ih]
    by_cases hp : p.1 = it
    · rw [if_pos hp]
    · rw [if_neg hp]

/-- One RP-list scan step keeps the item keys duplicate-free. -/
theorem rpListStepItem_keys_nodup (per min_ps ts : Nat)
    (rp : List (Item × RPItemEntry)) (it : Item)
    (h : (rp.map Prod.fst).Nodup) :
    ((rpListStepItem per min_ps ts rp it).map Prod.fst).Nodup := by
  unfold rpListStepItem
  rcases hl : rp.lookup it with _ | v
  · simp only [hl]
    rw [List.map_append]
    refine h.append (by simp) ?_
    intro x hx hx2
    simp only [List.map_cons, List.map_nil, List.mem_singleton] at hx2
    rw [List.mem_map] at hx
    obtain ⟨p, hp, hpx⟩ := hx
    exact lookup_none_forall rp it hl p hp (hpx.trans hx2)
  · simp only [hl]
    rw [map_fst_map_upd]
    exact h

theorem rpListStepFold_keys_nodup (per min_ps ts : Nat) :
    ∀ (items : List Item) (rp : List (Item × RPItemEntry)),
      (rp.map Prod.fst).Nodup →
      ((items.foldl (rpListStepItem per min_ps ts) rp).map Prod.fst).Nodup := by
  intro items
  induction items with
  | nil => intro rp h; exact h
  | cons i items ih =>
    intro rp h
    rw [List.foldl_cons]
    exact ih _ (rpListStepItem_keys_nodup per min_ps ts rp i h)

/-- The RP-list scan produces duplicate-free item keys. -/
theorem rpListScan_keys_nodup (per min_ps : Nat) (tdb : TDB) :
    ((rpListScan per min_ps tdb).map Prod.fst).Nodup := by
  suffices h : ∀ (txns : TDB) (rp : List (Item × RPItemEntry)),
      (rp.map Prod.fst).Nodup →
      ((txns.foldl (fun rp txn =>
        txn.2.foldl (rpListStepItem per min_ps txn.1) rp) rp).map
          Prod.fst).Nodup by
    exact h tdb [] (by simp)
  intro txns
  induction txns with
  | nil => intro rp h; exact h
  | cons txn txns ih =>
    intro rp h
    rw [List.foldl_cons]
    exact ih _ (rpListStepFold_keys_nodup per min_ps txn.1 txn.2 rp h)

theorem insertSortedEntry_perm (a : Item × RPItemEntry) :
    ∀ (l : List (Item × RPItemEntry)), (insertSortedEntry a l).Perm (a :: l) := by
  intro l
  induction l with
  | nil => exact List.Perm.refl _
  | cons b bs ih =>
    unfold insertSortedEntry
    by_cases hk : rpKeyLe a b
    · rw [if_pos hk]
    · rw [if_neg hk]
      exact (ih.cons b).trans (List.Perm.swap a b bs)

theorem foldr_insertSortedEntry_perm :
    ∀ (l : List (Item × RPItemEntry)),
      (l.foldr insertSortedEntry []).Perm l := by
  intro l
  induction l with
  | nil => exact List.Perm.refl _
  | cons a l ih =>
    rw [List.foldr_cons]
    exact (insertSortedEntry_perm a _).trans (ih.cons a)

theorem map_fst_flushed (l : List (Item × RPItemEntry)) (min_ps : Nat) :
    ((l.map (fun p => (p.1, rpFlushEntry min_ps p.2))).map Prod.fst)
      = l.map Prod.fst := by
  induction l with
  | nil => rfl
  | cons p l ih => rw [List.map_cons, List.map_cons, List.map_cons, ih]

/-- The final RP-list has no duplicate items. -/
theorem buildFinalRpList_nodup (per min_ps min_rec : Nat) (tdb : TDB) :
    (buildFinalRpList per min_ps min_rec tdb).Nodup := by
  unfold buildFinalRpList
  simp only
  have h1 : (((rpListScan per min_ps tdb).map
      (fun p => (p.1, rpFlushEntry min_ps p.2))).map Prod.fst).Nodup := by
    rw [map_fst_flushed]
    exact rpListScan_keys_nodup per min_ps tdb
  have h2 : ((((rpListScan per min_ps tdb).map
      (fun p => (p.1, rpFlushEntry min_ps p.2))).filter
        (fun p => min_rec ≤ p.2.max_recurrence)).map Prod.fst).Nodup :=
    h1.sublist ((List.filter_sublist _).map Prod.fst)
  have h3 := (foldr_insertSortedEntry_perm
    (((rpListScan per min_ps tdb).map
      (fun p => (p.1, rpFlushEntry min_ps p.2))).filter
        (fun p => min_rec ≤ p.2.max_recurrence))).map Prod.fst
  exact (h3.symm.nodup_iff).1 h2

/-- The tree built from the database is well-formed, carries the final
RP-list, and all its route keys are RP-list items. -/
theorem buildTree_spec (L : List Item) (hnd : L.Nodup) (tdb : TDB) :
    Wf (buildTree L tdb) ∧ (buildTree L tdb).rpList = L ∧
    (∀ q ∈ (buildTree L tdb).routes, q.1 ∈ L) := by
  unfold buildTree
  suffices h : ∀ (txns : TDB) (t : RPTreeSt), Wf t → t.rpList = L →
      (∀ q ∈ t.routes, q.1 ∈ L) →
      Wf (txns.foldl (fun t txn =>
        t.insertNode (L.filter (fun i => txn.2.contains i)) txn.1) t) ∧
      (txns.foldl (fun t txn =>
        t.insertNode (L.filter (fun i => txn.2.contains i)) txn.1) t).rpList
        = L ∧
      (∀ q ∈ (txns.foldl (fun t txn =>
        t.insertNode (L.filter (fun i => txn.2.contains i)) txn.1) t).routes,
        q.1 ∈ L) by
    exact h tdb (RPTreeSt.mkEmpty L) (Wf_mkEmpty L) rfl
      (by intro q hq; cases hq)
  intro txns
  induction txns with
  | nil => intro t hw hrp hk; exact ⟨hw, hrp, hk⟩
  | cons txn txns ih =>
    intro t hw hrp hk
    rw [List.foldl_cons]
    have hasc : ItemsAsc t none (L.filter (fun i => txn.2.contains i)) := by
      rw [← hrp]
      exact itemsAsc_filter t (by rw [hrp]; exact hnd) _
    obtain ⟨hw1, hrp1, _, hkeys1⟩ := insertNode_spec t hw _ txn.1 hasc
    refine ih _ hw1 (by rw [hrp1, hrp]) ?_
    intro q hq
    rcases hkeys1 q hq with h1 | h2
    · rw [List.mem_map] at h1
      obtain ⟨p, hp, hpq⟩ := h1
      rw [← hpq]
      exact hk p hp
    · exact List.mem_of_mem_filter h2


/-! #### Strictly descending pattern suffixes -/

/-- A list of RP-list items whose positions strictly descend, starting
strictly below the bound. -/
def DescBelow (L : List Item) : Nat → List Item → Prop
  | _, [] => True
  | b, x :: xs => x ∈ L ∧ L.indexOf x < b ∧ DescBelow L (L.indexOf x) xs

theorem DescBelow_mono (L : List Item) :
    ∀ (l : List Item) (b b2 : Nat), b ≤ b2 → DescBelow L b l →
      DescBelow L b2 l := by
  intro l
  cases l with
  | nil => intro b b2 _ _; trivial
  | cons x xs =>
    intro b b2 hle h
    obtain ⟨h1, h2, h3⟩ := h
    exact ⟨h1, by omega, h3⟩

theorem DescBelow_all (L : List Item) :
    ∀ (l : List Item) (b : Nat), DescBelow L b l →
      ∀ x ∈ l, x ∈ L ∧ L.indexOf x < b := by
  intro l
  induction l with
  | nil => intro b _ x hx; cases hx
  | cons y ys ih =>
    intro b h x hx
    obtain ⟨h1, h2, h3⟩ := h
    rcases List.mem_cons.1 hx with rfl | hx2
    · exact ⟨h1, h2⟩
    · obtain ⟨g1, g2⟩ := ih _ h3 x hx2
      exact ⟨g1, by omega⟩

theorem indexOf_inj (L : List Item) :
    ∀ (x y : Item), x ∈ L → y ∈ L → L.indexOf x = L.indexOf y → x = y := by
  induction L with
  | nil => intro x y hx; cases hx
  | cons a L ih =>
    intro x y hx hy h
    by_cases hxa : x = a
    · by_cases hya : y = a
      · rw [hxa, hya]
      · rw [hxa, List.indexOf_cons_self,
          List.indexOf_cons_ne L (fun hh => hya hh.symm)] at h
        cases h
    · by_cases hya : y = a
      · rw [hya, List.indexOf_cons_self,
          List.indexOf_cons_ne L (fun hh => hxa hh.symm)] at h
        cases h
      · rw [List.indexOf_cons_ne L (fun hh => hxa hh.symm),
          List.indexOf_cons_ne L (fun hh => hya hh.symm)] at h
        have hx2 : x ∈ L := by
          rcases List.mem_cons.1 hx with h2 | h2
          · exact absurd h2 hxa
          · exact h2
        have hy2 : y ∈ L := by
          rcases List.mem_cons.1 hy with h2 | h2
          · exact absurd h2 hya
          · exact h2
        exact ih x y hx2 hy2 (Nat.succ_injective h)

/-- A strictly descending item list has no duplicates. -/
theorem DescBelow_nodup (L : List Item) :
    ∀ (l : List Item) (b : Nat), DescBelow L b l → l.Nodup := by
  intro l
  induction l with
  | nil => intro b _; exact List.nodup_nil
  | cons x xs ih =>
    intro b h
    obtain ⟨h1, h2, h3⟩ := h
    rw [List.nodup_cons]
    refine ⟨?_, ih _ h3⟩
    intro hx
    have := (DescBelow_all L xs _ h3 x hx).2
    omega

/-- Two strictly descending item lists with the same members are
equal. -/
theorem DescBelow_ext (L : List Item) :
    ∀ (p : List Item) (q : List Item) (b c : Nat),
      DescBelow L b p → DescBelow L c q →
      (∀ x, x ∈ p ↔ x ∈ q) → p = q := by
  intro p
  induction p with
  | nil =>
    intro q b c _ _ hiff
    cases q with
    | nil => rfl
    | cons y ys =>
      have : y ∈ ([] : List Item) := (hiff y).2 (by simp)
      cases this
  | cons x xs ih =>
    intro q b c hp hq hiff
    cases q with
    | nil =>
      have : x ∈ ([] : List Item) := (hiff x).1 (by simp)
      cases this
    | cons y ys =>
      obtain ⟨hx1, hx2, hx3⟩ := hp
      obtain ⟨hy1, hy2, hy3⟩ := hq
      have hxy : x = y := by
        have hxq : x ∈ y :: ys := (hiff x).1 (by simp)
        have hyp : y ∈ x :: xs := (hiff y).2 (by simp)
        rcases List.mem_cons.1 hxq with h1 | h1
        · exact h1
        · rcases List.mem_cons.1 hyp with h2 | h2
          · exact h2.symm
          · have g1 := (DescBelow_all L ys _ hy3 x h1).2
            have g2 := (DescBelow_all L xs _ hx3 y h2).2
            omega
      subst hxy
      have hiff2 : ∀ z, z ∈ xs ↔ z ∈ ys := by
        intro z
        constructor
        · intro hz
          have hzx : L.indexOf z < L.indexOf x :=
            (DescBelow_all L xs _ hx3 z hz).2
          have : z ∈ x :: ys := (hiff z).1 (by simp [hz])
          rcases List.mem_cons.1 this with h1 | h1
          · subst h1
            omega
          · exact h1
        · intro hz
          have hzx : L.indexOf z < L.indexOf x :=
            (DescBelow_all L ys _ hy3 z hz).2
          have : z ∈ x :: xs := (hiff z).2 (by simp [hz])
          rcases List.mem_cons.1 this with h1 | h1
          · subst h1
            omega
          · exact h1
      rw [ih ys _ _ hx3 hy3 hiff2]

/-! #### Monadic reduction helpers -/

theorem except_bind_ok {α β : Type} (a : α) (f : α → Except String β) :
    (bind (Except.ok a) f : Except String β) = f a := rfl

theorem except_pure {α : Type} (a : α) :
    (pure a : Except String α) = Except.ok a := rfl


theorem append_cons_ne (pattern : List Item) (x y : Item) (A Bx : List Item)
    (hxy : x ≠ y) : pattern ++ x :: A ≠ pattern ++ y :: Bx := by
  intro h
  have h2 := List.append_cancel_left h
  injection h2 with h3 _
  exact hxy h3

theorem append_cons_len_ne (pattern : List Item) (x : Item) (A : List Item)
    (hA : A ≠ []) : pattern ++ [x] ≠ pattern ++ x :: A := by
  intro h
  have h2 := List.append_cancel_left h
  injection h2 with _ h3
  exact hA h3.symm

/-- The `_rp_growth` loop body: on a well-formed tree sharing a
duplicate-free RP-list `L`, with all route keys positioned below `B + 1`
and a duplicate-free iteration list, the loop succeeds (given that the
recursive call succeeds on trees with keys below `B`), every produced
pattern extends the prefix by a strictly descending suffix headed by an
iterated route key, and the produced patterns are pairwise distinct. -/
theorem rpGrowthGo_spec (per min_ps min_rec : Nat) (L : List Item)
    (B : Nat)
    (recur : RPTreeSt → List Item → Except String (List (List Item) × RPTreeSt))
    (hrec : ∀ (t : RPTreeSt) (pat : List Item), Wf t → t.rpList = L →
      (∀ q ∈ t.routes, q.1 ∈ L ∧ L.indexOf q.1 < B) → 0 < t.nodeCount →
      ∃ out t2, recur t pat = .ok (out, t2) ∧
        (∀ p ∈ out, ∃ x sfx, p = pat ++ x :: sfx ∧
          x ∈ t.routes.map Prod.fst ∧ x ∈ L ∧
          DescBelow L (L.indexOf x) sfx) ∧
        out.Pairwise (fun p1 p2 => p1 ≠ p2)) :
    ∀ (items : List Item) (tree : RPTreeSt) (pattern : List Item),
      Wf tree → tree.rpList = L →
      (∀ q ∈ tree.routes, q.1 ∈ L ∧ L.indexOf q.1 < B + 1) →
      items.Nodup →
      ∃ out t2,
        rpGrowthGo per min_ps min_rec recur tree pattern items
          = .ok (out, t2) ∧
        (∀ p ∈ out, ∃ x sfx, p = pattern ++ x :: sfx ∧ x ∈ items ∧
          x ∈ tree.routes.map Prod.fst ∧ x ∈ L ∧
          DescBelow L (L.indexOf x) sfx) ∧
        out.Pairwise (fun p1 p2 => p1 ≠ p2) := by
  intro items
  induction items with
  | nil =>
    intro tree pattern hwf hrp hkeys _
    refine ⟨[], tree, rfl, ?_, List.Pairwise.nil⟩
    intro p hp
    cases hp
  | cons item rest ih =>
    intro tree pattern hwf hrp hkeys hndi
    have hndrest : rest.Nodup := (List.nodup_cons.1 hndi).2
    have hirest : item ∉ rest := (List.nodup_cons.1 hndi).1
    rcases hA : tree.routes.lookup item with _ | l
    · have hgo : rpGrowthGo per min_ps min_rec recur tree pattern (item :: rest)
          = rpGrowthGo per min_ps min_rec recur tree pattern rest := by
        simp only [rpGrowthGo, hA]
        rfl
      obtain ⟨out, t2, he, hshape, hpw⟩ := ih tree pattern hwf hrp hkeys hndrest
      refine ⟨out, t2, by rw [hgo]; exact he, ?_, hpw⟩
      intro p hp
      obtain ⟨x, sfx, h1, h2, h3, h4, h5⟩ := hshape p hp
      exact ⟨x, sfx, h1, by simp [h2], h3, h4, h5⟩
    · have hmem : (item, l) ∈ tree.routes := lookup_mem _ _ _ hA
      have hitemR : item ∈ tree.routes.map Prod.fst :=
        List.mem_map.2 ⟨(item, l), hmem, rfl⟩
      have hitemL : item ∈ L := (hkeys (item, l) hmem).1
      have hitemB : L.indexOf item < B + 1 := (hkeys (item, l) hmem).2
      obtain ⟨temp, pt, hpt, hwfpt, hrppt, htempa, hptkeys⟩ :=
        prefixTree_spec tree hwf item l hA
      have hidx : ∀ y, idxI tree y = L.indexOf y := by
        intro y
        simp [idxI, hrp]
      obtain ⟨tsItem, hts⟩ := Option.isSome_iff_exists.1 htempa
      have htg : tempGet temp item = .ok tsItem := by
        unfold tempGet
        rw [hts]
      obtain ⟨tree1, hrem, hwf1, hrp1, hro1, _, _⟩ :=
        removeNodes_spec tree hwf item l hA
      have hkeys1 : ∀ q ∈ tree1.routes, q.1 ∈ L ∧ L.indexOf q.1 < B + 1 := by
        intro q hq
        rw [hro1] at hq
        exact hkeys q (List.mem_of_mem_filter hq)
      obtain ⟨out3, t4, he3, hshape3, hpw3⟩ :=
        ih tree1 pattern hwf1 (by rw [hrp1, hrp]) hkeys1 hndrest
      have hshape3b : ∀ p ∈ out3, ∃ x sfx, p = pattern ++ x :: sfx ∧
          x ∈ rest ∧ x ∈ tree.routes.map Prod.fst ∧ x ∈ L ∧
          DescBelow L (L.indexOf x) sfx := by
        intro p hp
        obtain ⟨x, sfx, h1, h2, h3, h4, h5⟩ := hshape3 p hp
        have h3b : x ∈ tree.routes.map Prod.fst := by
          rw [List.mem_map] at h3 ⊢
          obtain ⟨q, hq, hqx⟩ := h3
          rw [hro1] at hq
          exact ⟨q, List.mem_of_mem_filter hq, hqx⟩
        exact ⟨x, sfx, h1, h2, h3b, h4, h5⟩
      rcases hb : (getRecurrence per min_ps min_rec (sortNat tsItem)
          && !(pattern.contains item))
      · -- the item fails the recurrence test (or is already in the prefix)
        have hgo : rpGrowthGo per min_ps min_rec recur tree pattern
            (item :: rest) = .ok (out3, t4) := by
          simp only [rpGrowthGo, hA, Option.isNone_some, Bool.false_eq_true,
            if_false, hpt, except_bind_ok, htg, hb, hrem, he3, except_pure]
        refine ⟨out3, t4, hgo, ?_, hpw3⟩
        intro p hp
        obtain ⟨x, sfx, h1, h2, h3, h4, h5⟩ := hshape3b p hp
        exact ⟨x, sfx, h1, by simp [h2], h3, h4, h5⟩
      · -- the item qualifies: emit the new pattern and recurse
        have hkeyscond : ∀ q ∈ pt.routes,
            ((tempDelete temp item).lookup q.1).isSome := by
          intro q hq
          obtain ⟨hq1, hq2, hq3⟩ := hptkeys q hq
          have hqne : q.1 ≠ item := by
            intro he
            rw [he] at hq2
            omega
          unfold tempDelete
          rw [lookup_filter_ne_keys temp item q.1 hqne]
          exact hq3
        obtain ⟨condTree, hcondE, hwfc, hrpc, hsubc⟩ :=
          condFilterLoop_spec per min_ps min_rec (tempDelete temp item)
            pt.rpList.reverse pt hwfpt hkeyscond
        have hcond : constructConditionalFromPrefix per min_ps min_rec pt
            (tempDelete temp item) = .ok condTree := hcondE
        have hrpcL : condTree.rpList = L := by
          rw [hrpc, hrppt, hrp]
        have hkeysc : ∀ q ∈ condTree.routes,
            q.1 ∈ L ∧ L.indexOf q.1 < L.indexOf item := by
          intro q hq
          obtain ⟨h1, h2, _⟩ := hptkeys q (hsubc q hq)
          rw [hidx, hidx] at h2
          exact ⟨by rw [← hrp]; exact h1, h2⟩
        have hkeyscB : ∀ q ∈ condTree.routes, q.1 ∈ L ∧ L.indexOf q.1 < B := by
          intro q hq
          obtain ⟨h1, h2⟩ := hkeysc q hq
          exact ⟨h1, by omega⟩
        rcases hnc : condTree.nodeCount with _ | m
        · -- empty conditional tree: no recursion
          have hgo : rpGrowthGo per min_ps min_rec recur tree pattern
              (item :: rest)
              = .ok ((pattern ++ [item]) :: ([] ++ out3), t4) := by
            simp only [rpGrowthGo, hA, Option.isNone_some, Bool.false_eq_true,
              if_false, hpt, except_bind_ok, htg, hb, eq_self_iff_true,
              if_true, hcond, hnc, Nat.lt_irrefl, hrem, he3, except_pure]
          have houtDec : ∀ p ∈ out3, ∃ x Bx, p = pattern ++ x :: Bx ∧
              x ∈ rest := by
            intro p hp
            obtain ⟨x, sfx, h1, h2, _, _, _⟩ := hshape3b p hp
            exact ⟨x, sfx, h1, h2⟩
          refine ⟨(pattern ++ [item]) :: ([] ++ out3), t4, hgo, ?_, ?_⟩
          · intro p hp
            rcases List.mem_cons.1 hp with rfl | hp2
            · exact ⟨item, [], rfl, by simp, hitemR, hitemL, trivial⟩
            rw [List.nil_append] at hp2
            obtain ⟨x, sfx, h1, h2, h3, h4, h5⟩ := hshape3b p hp2
            exact ⟨x, sfx, h1, by simp [h2], h3, h4, h5⟩
          · rw [List.pairwise_cons]
            refine ⟨?_, by rw [List.nil_append]; exact hpw3⟩
            intro p hp
            rw [List.nil_append] at hp
            obtain ⟨x, Bx, hB2, hxr⟩ := houtDec p hp
            rw [hB2]
            intro hh
            have h2 := List.append_cancel_left hh
            injection h2 with h3 _
            rw [← h3] at hxr
            exact hirest hxr
        · -- non-empty conditional tree: recurse
          obtain ⟨out2, t3, hrecE, hshape2, hpw2⟩ :=
            hrec condTree (pattern ++ [item]) hwfc hrpcL hkeyscB (by omega)
          have hgo : rpGrowthGo per min_ps min_rec recur tree pattern
              (item :: rest)
              = .ok ((pattern ++ [item]) :: (out2 ++ out3), t4) := by
            simp only [rpGrowthGo, hA, Option.isNone_some, Bool.false_eq_true,
              if_false, hpt, except_bind_ok, htg, hb, eq_self_iff_true,
              if_true, hcond, hnc, Nat.zero_lt_succ, hrecE, hrem, he3,
              except_pure]
          have hsubDec : ∀ p ∈ out2, ∃ A, p = pattern ++ item :: A ∧
              A ≠ [] := by
            intro p hp
            obtain ⟨x2, sfx2, h1, _, _, _⟩ := hshape2 p hp
            refine ⟨x2 :: sfx2, ?_, by intro hh; cases hh⟩
            rw [h1, List.append_assoc]
            rfl
          have houtDec : ∀ p ∈ out3, ∃ x Bx, p = pattern ++ x :: Bx ∧
              x ∈ rest := by
            intro p hp
            obtain ⟨x, sfx, h1, h2, _, _, _⟩ := hshape3b p hp
            exact ⟨x, sfx, h1, h2⟩
          refine ⟨(pattern ++ [item]) :: (out2 ++ out3), t4, hgo, ?_, ?_⟩
          · intro p hp
            rcases List.mem_cons.1 hp with rfl | hp2
            · exact ⟨item, [], rfl, by simp, hitemR, hitemL, trivial⟩
            rcases List.mem_append.1 hp2 with hp3 | hp3
            · obtain ⟨x2, sfx2, h1, h2, h3, h4⟩ := hshape2 p hp3
              have hx2lt : L.indexOf x2 < L.indexOf item := by
                rw [List.mem_map] at h2
                obtain ⟨q, hq, hqx⟩ := h2
                have := (hkeysc q hq).2
                rw [hqx] at this
                exact this
              refine ⟨item, x2 :: sfx2, ?_, by simp, hitemR, hitemL,
                h3, hx2lt, h4⟩
              rw [h1, List.append_assoc]
              rfl
            · obtain ⟨x, sfx, h1, h2, h3, h4, h5⟩ := hshape3b p hp3
              exact ⟨x, sfx, h1, by simp [h2], h3, h4, h5⟩
          · rw [List.pairwise_cons]
            constructor
            · intro p hp
              rcases List.mem_append.1 hp with hp2 | hp2
              · obtain ⟨A, hA2, hAne⟩ := hsubDec p hp2
                rw [hA2]
                exact append_cons_len_ne pattern item A hAne
              · obtain ⟨x, Bx, hB2, hxr⟩ := houtDec p hp2
                rw [hB2]
                intro hh
                have h2 := List.append_cancel_left hh
                injection h2 with h3 _
                rw [← h3] at hxr
                exact hirest hxr
            · rw [List.pairwise_append]
              refine ⟨hpw2, hpw3, ?_⟩
              intro p1 hp1 p2 hp2
              obtain ⟨A, hA2, _⟩ := hsubDec p1 hp1
              obtain ⟨x, Bx, hB2, hxr⟩ := houtDec p2 hp2
              rw [hA2, hB2]
              refine append_cons_ne pattern item x A Bx ?_
              intro hh
              rw [hh] at hirest
              exact hirest hxr


/-- `_rp_growth` with fuel: with all route keys positioned below the
fuel, the computation succeeds, every produced pattern extends the
prefix by a strictly descending suffix headed by a route key, and the
produced patterns are pairwise distinct. -/
theorem rpGrowthFuel_spec (per min_ps min_rec : Nat) (L : List Item)
    (hnd : L.Nodup) :
    ∀ (fuel : Nat) (tree : RPTreeSt) (pattern : List Item),
      Wf tree → tree.rpList = L →
      (∀ q ∈ tree.routes, q.1 ∈ L ∧ L.indexOf q.1 < fuel) →
      ∃ out t2,
        rpGrowthFuel per min_ps min_rec fuel tree pattern = .ok (out, t2) ∧
        (∀ p ∈ out, ∃ x sfx, p = pattern ++ x :: sfx ∧
          x ∈ tree.routes.map Prod.fst ∧ x ∈ L ∧
          DescBelow L (L.indexOf x) sfx) ∧
        out.Pairwise (fun p1 p2 => p1 ≠ p2) := by
  intro fuel
  induction fuel with
  | zero =>
    intro tree pattern hwf hrp hkeys
    have hrec0 : ∀ (t : RPTreeSt) (pat : List Item), Wf t → t.rpList = L →
        (∀ q ∈ t.routes, q.1 ∈ L ∧ L.indexOf q.1 < 0) → 0 < t.nodeCount →
        ∃ out t2,
          (fun (_ : RPTreeSt) (_ : List Item) =>
            (.error "recursion fuel exhausted" :
              Except String (List (List Item) × RPTreeSt))) t pat
            = .ok (out, t2) ∧
          (∀ p ∈ out, ∃ x sfx, p = pat ++ x :: sfx ∧
            x ∈ t.routes.map Prod.fst ∧ x ∈ L ∧
            DescBelow L (L.indexOf x) sfx) ∧
          out.Pairwise (fun p1 p2 => p1 ≠ p2) := by
      intro t pat _ _ hk hc
      exfalso
      have hne : t.routes ≠ [] := by
        intro hh
        unfold RPTreeSt.nodeCount at hc
        rw [hh] at hc
        simp at hc
      obtain ⟨q, hq⟩ := List.exists_mem_of_ne_nil t.routes hne
      have := (hk q hq).2
      omega
    have hkeys1 : ∀ q ∈ tree.routes, q.1 ∈ L ∧ L.indexOf q.1 < 0 + 1 := by
      intro q hq
      obtain ⟨h1, h2⟩ := hkeys q hq
      exact ⟨h1, by omega⟩
    obtain ⟨out, t2, he, hshape, hpw⟩ := rpGrowthGo_spec per min_ps min_rec L 0
      (fun _ _ => .error "recursion fuel exhausted") hrec0
      tree.rpList.reverse tree pattern hwf hrp hkeys1
      (by rw [hrp]; exact List.nodup_reverse.2 hnd)
    refine ⟨out, t2, ?_, ?_, hpw⟩
    · simp only [rpGrowthFuel]
      exact he
    · intro p hp
      obtain ⟨x, sfx, h1, _, h3, h4, h5⟩ := hshape p hp
      exact ⟨x, sfx, h1, h3, h4, h5⟩
  | succ fuel ih =>
    intro tree pattern hwf hrp hkeys
    have hrecI : ∀ (t : RPTreeSt) (pat : List Item), Wf t → t.rpList = L →
        (∀ q ∈ t.routes, q.1 ∈ L ∧ L.indexOf q.1 < fuel) → 0 < t.nodeCount →
        ∃ out t2,
          rpGrowthFuel per min_ps min_rec fuel t pat = .ok (out, t2) ∧
          (∀ p ∈ out, ∃ x sfx, p = pat ++ x :: sfx ∧
            x ∈ t.routes.map Prod.fst ∧ x ∈ L ∧
            DescBelow L (L.indexOf x) sfx) ∧
          out.Pairwise (fun p1 p2 => p1 ≠ p2) := by
      intro t pat hwt hrt hkt _
      exact ih t pat hwt hrt hkt
    obtain ⟨out, t2, he, hshape, hpw⟩ := rpGrowthGo_spec per min_ps min_rec L
      fuel (rpGrowthFuel per min_ps min_rec fuel) hrecI
      tree.rpList.reverse tree pattern hwf hrp hkeys
      (by rw [hrp]; exact List.nodup_reverse.2 hnd)
    refine ⟨out, t2, ?_, ?_, hpw⟩
    · simp only [rpGrowthFuel]
      exact he
    · intro p hp
      obtain ⟨x, sfx, h1, _, h3, h4, h5⟩ := hshape p hp
      exact ⟨x, sfx, h1, h3, h4, h5⟩


/-- The full miner succeeds, every output pattern is a strictly
descending (hence duplicate-free) sequence of final-RP-list items, and
the output patterns are pairwise distinct as sequences. -/
theorem findRecurringPatterns_spec (per min_ps min_rec : Nat) (tdb : TDB) :
    ∃ out, findRecurringPatterns per min_ps min_rec tdb = .ok out ∧
      (∀ p ∈ out, DescBelow (buildFinalRpList per min_ps min_rec tdb)
        (buildFinalRpList per min_ps min_rec tdb).length p ∧ p ≠ []) ∧
      out.Pairwise (fun p1 p2 => p1 ≠ p2) := by
  have hnd := buildFinalRpList_nodup per min_ps min_rec tdb
  obtain ⟨hwf, hrp, hkeys⟩ :=
    buildTree_spec (buildFinalRpList per min_ps min_rec tdb) hnd tdb
  have hkeys2 : ∀ q ∈ (buildTree (buildFinalRpList per min_ps min_rec tdb)
      tdb).routes,
      q.1 ∈ buildFinalRpList per min_ps min_rec tdb ∧
      (buildFinalRpList per min_ps min_rec tdb).indexOf q.1 <
        (buildFinalRpList per min_ps min_rec tdb).length := by
    intro q hq
    have h1 := hkeys q hq
    exact ⟨h1, List.indexOf_lt_length.2 h1⟩
  obtain ⟨out, t2, he, hshape, hpw⟩ := rpGrowthFuel_spec per min_ps min_rec
    (buildFinalRpList per min_ps min_rec tdb) hnd
    (buildFinalRpList per min_ps min_rec tdb).length
    (buildTree (buildFinalRpList per min_ps min_rec tdb) tdb) [] hwf hrp hkeys2
  refine ⟨out, ?_, ?_, hpw⟩
  · simp only [findRecurringPatterns]
    rw [he]
    rfl
  · intro p hp
    obtain ⟨x, sfx, h1, _, h4, h5⟩ := hshape p hp
    rw [List.nil_append] at h1
    subst h1
    exact ⟨⟨h4, List.indexOf_lt_length.2 h4, h5⟩, by intro hh; cases hh⟩

/-- C8: for every finite database and all parameters, the recursive
pattern-growth procedure terminates with a finite pattern list: the
recursion depth never exceeds the number of distinct RP-list items, so
running it with that much fuel never hits the fuel guard and returns
successfully. -/
theorem C8_mining_terminates (per min_ps min_rec : Nat) (tdb : TDB) :
    ∃ out, findRecurringPatterns per min_ps min_rec tdb = .ok out := by
  obtain ⟨out, he, _, _⟩ := findRecurringPatterns_spec per min_ps min_rec tdb
  exact ⟨out, he⟩

/-- C7: whenever `find_recurring_patterns` returns a pattern list, every
pattern has duplicate-free items, and no two returned patterns are equal
as item sets. -/
theorem C7_patterns_distinct_as_sets (per min_ps min_rec : Nat) (tdb : TDB)
    (out : List (List Item))
    (h : findRecurringPatterns per min_ps min_rec tdb = .ok out) :
    (∀ p ∈ out, p.Nodup) ∧
    out.Pairwise (fun p1 p2 => ¬ (∀ x, x ∈ p1 ↔ x ∈ p2)) := by
  obtain ⟨out2, he, hshape, hpw⟩ :=
    findRecurringPatterns_spec per min_ps min_rec tdb
  rw [he] at h
  injection h with h2
  subst h2
  constructor
  · intro p hp
    exact DescBelow_nodup (buildFinalRpList per min_ps min_rec tdb) p _
      (hshape p hp).1
  · refine hpw.imp_of_mem ?_
    intro p1 p2 hp1 hp2 hne hiff
    exact hne (DescBelow_ext (buildFinalRpList per min_ps min_rec tdb) p1 p2
      _ _ (hshape p1 hp1).1 (hshape p2 hp2).1 hiff)

/-- C7, witness: on the database {1: [1], 2: [1]} with per = min_ps =
min_rec = 1 the miner returns [[1]], whose single pattern is
duplicate-free. -/
theorem C7_witness :
    findRecurringPatterns 1 1 1 [(1, [1]), (2, [1])] = .ok [[1]] ∧
    ((∀ p ∈ [[1]], List.Nodup p) ∧
      List.Pairwise (fun p1 p2 => ¬ (∀ x, x ∈ p1 ↔ x ∈ p2))
        ([[1]] : List (List Item))) :=
  ⟨rfl, C7_patterns_distinct_as_sets 1 1 1 [(1, [1]), (2, [1])] [[1]] rfl⟩

end RPGrowth
